import Mathlib

/-!
Verification of the Minimac4 imputation engine against its specification.

The definitions below are a shallow embedding of the C++ sources:
machine integers become `ℕ`/`ℤ`, `float`/`double` values that only flow
through comparisons and exact algebra become `ℚ`/`ℝ`, and the
end-of-vector sentinel of `savvy::typed_value` is modelled as `none` of
an `Option` type.  Fields of the C++ classes keep their source names
(trailing underscore included); accessor member functions keep their
names without the underscore.
-/

set_option maxHeartbeats 1000000

namespace Minimac4

/-! ### Program arguments (src/src/prog_args.hpp) -/

/-- State of `prog_args` restricted to the fields read or written by the
block-compression tunables and the ratio gate.  Defaults mirror the
in-class initializers of `prog_args` (src/src/prog_args.hpp lines 38-58). -/

structure prog_args where
  min_block_size_ : ℕ := 10
  max_block_size_ : ℕ := 0xFFFF
  slope_unit_ : ℕ := 10
  min_ratio_ : ℚ := 1/10000
  fail_min_ratio_ : Bool := true
deriving Repr, DecidableEq

/-- Long options of the `'\x02'` dispatch chain of `prog_args::parse`
relevant to claim C1, with their argument already converted the way the
source converts it (`std::atoll` for the three block options, `std::atof`
for `--min-ratio`). -/

inductive parsed_long_opt
  | min_block_size_opt (n : ℤ)
  | max_block_size_opt (n : ℤ)
  | slope_unit_opt (n : ℤ)
  | min_ratio_opt (x : ℚ)
deriving Repr, DecidableEq

/-- One step of the `switch`/`else if` chain of `prog_args::parse`
(src/src/prog_args.hpp lines 483-549).  The source assigns
`min_ratio_ = std::max(1ll, std::atoll(optarg))` in all three of the
`min-block-size`, `max-block-size` and `slope-unit` branches. -/

def prog_args.apply_long_opt (a : prog_args) : parsed_long_opt → prog_args
  | .min_block_size_opt n => { a with min_ratio_ := ((max 1 n : ℤ) : ℚ) }
  | .max_block_size_opt n => { a with min_ratio_ := ((max 1 n : ℤ) : ℚ) }
  | .slope_unit_opt n => { a with min_ratio_ := ((max 1 n : ℤ) : ℚ) }
  | .min_ratio_opt x => { a with min_ratio_ := min 1 (max 0 x) }

/-- The option-processing loop of `prog_args::parse` starting from the
default-constructed state, restricted to the modelled long options. -/

def prog_args.parse (opts : List parsed_long_opt) : prog_args :=
  opts.foldl prog_args.apply_long_opt {}

/-- Accessor `prog_args::min_block_size` (src/src/prog_args.hpp line 118). -/

def prog_args.min_block_size (a : prog_args) : ℕ := a.min_block_size_

/-- Accessor `prog_args::max_block_size` (src/src/prog_args.hpp line 121). -/

def prog_args.max_block_size (a : prog_args) : ℕ := a.max_block_size_

/-- Accessor `prog_args::slope_unit` (src/src/prog_args.hpp line 124). -/

def prog_args.slope_unit (a : prog_args) : ℕ := a.slope_unit_

/-- Accessor `prog_args::min_ratio` (src/src/prog_args.hpp line 133). -/

def prog_args.min_ratio (a : prog_args) : ℚ := a.min_ratio_

/-- Accessor `prog_args::fail_min_ratio` (src/src/prog_args.hpp line 163). -/

def prog_args.fail_min_ratio (a : prog_args) : Bool := a.fail_min_ratio_

/-! ### Dosage result matrices (full_dosages_results) -/

/-- Cell of a dosage matrix: `none` models the float end-of-vector
sentinel `savvy::typed_value::end_of_vector_value<float>()`. -/

abbrev dcell := Option ℚ

/-- The two dense matrices of `full_dosages_results`. -/

structure full_dosages_results where
  dosages_ : List (List dcell)
  loo_dosages_ : List (List dcell)
deriving Repr, DecidableEq

/-- Semantics of `std::vector::resize(n, fill)`: truncate to `n` or pad
with `fill` up to `n`. -/

def vec_resize {α : Type} (v : List α) (n : ℕ) (fill : α) : List α :=
  v.take n ++ List.replicate (n - v.length) fill

/-- Member `full_dosages_results::resize` : both matrices are resized,
new rows being `n_columns` sentinel cells. -/

def full_dosages_results.resize (r : full_dosages_results)
    (n_rows n_loo_rows n_columns : ℕ) : full_dosages_results :=
  { dosages_ := vec_resize r.dosages_ n_rows (List.replicate n_columns none),
    loo_dosages_ := vec_resize r.loo_dosages_ n_loo_rows (List.replicate n_columns none) }

/-- Member `full_dosages_results::fill_eov` : every cell of both matrices
is overwritten with the end-of-vector sentinel. -/

def full_dosages_results.fill_eov (r : full_dosages_results) : full_dosages_results :=
  { dosages_ := r.dosages_.map (fun v => List.replicate v.length (none : dcell)),
    loo_dosages_ := r.loo_dosages_.map (fun v => List.replicate v.length (none : dcell)) }

/-- Member `full_dosages_results::dimensions` : sizes of `dosages_`. -/

def full_dosages_results.dimensions (r : full_dosages_results) : ℕ × ℕ :=
  (r.dosages_.length, (r.dosages_.headD []).length)

/-- Member `full_dosages_results::dimensions_loo` as written in the
source: it reads `dosages_`, not `loo_dosages_`. -/

def full_dosages_results.dimensions_loo (r : full_dosages_results) : ℕ × ℕ :=
  (r.dosages_.length, (r.dosages_.headD []).length)

/-! ### Recombination conversion functions (src/src/recombination.hpp) -/

/-- Member `recombination::haldane` (line 119):
`(1. - std::exp(-cm/50.))/2.`. -/

noncomputable def recombination.haldane (cm : ℝ) : ℝ :=
  (1 - Real.exp (-cm/50))/2

/-- Member `recombination::cm_to_switch_prob` (line 131):
`1. - std::exp(-cm/100.)`. -/

noncomputable def recombination.cm_to_switch_prob (cm : ℝ) : ℝ :=
  1 - Real.exp (-cm/100)

/-- Member `recombination::haldane_inverse` (line 160):
`50. * std::log(1. / (1. - 2. * recom_prob))`. -/

noncomputable def recombination.haldane_inverse (recom_prob : ℝ) : ℝ :=
  50 * Real.log (1 / (1 - 2 * recom_prob))

/-- Member `recombination::switch_prob_to_cm` (line 173):
`100. * std::log(1. / (1. - recom_prob))`. -/

noncomputable def recombination.switch_prob_to_cm (recom_prob : ℝ) : ℝ :=
  100 * Real.log (1 / (1 - recom_prob))

/-! ### Variant records and the unique-haplotype block data model -/

/-- Site metadata of `reference_site_info` (src/src/variant.hpp); the
float fields `err`, `recom` and `cm` carry no logic used by the claims
and are omitted. -/

structure reference_site_info where
  chrom : String
  pos : ℕ
  id : String
  ref : String
  alt : String
deriving Repr, DecidableEq

/-- Record `reference_variant` : site info plus allele count and the
per-unique-column genotype vector. -/

structure reference_variant extends reference_site_info where
  ac : ℕ
  gt : List ℕ
deriving Repr, DecidableEq

/-- State of `unique_haplotype_block` (src/src/unique_haplotype.hpp):
`unique_map_` entries are `none` at end-of-vector padding slots. -/

structure unique_haplotype_block where
  unique_map_ : List (Option ℕ)
  cardinalities_ : List ℕ
  variants_ : List reference_variant
deriving Repr, DecidableEq

/-- Accessor `unique_haplotype_block::variants`. -/

def unique_haplotype_block.variants (b : unique_haplotype_block) :
    List reference_variant := b.variants_

/-- Accessor `unique_haplotype_block::unique_map`. -/

def unique_haplotype_block.unique_map (b : unique_haplotype_block) :
    List (Option ℕ) := b.unique_map_

/-- Accessor `unique_haplotype_block::cardinalities`. -/

def unique_haplotype_block.cardinalities (b : unique_haplotype_block) :
    List ℕ := b.cardinalities_

/-- Accessor `unique_haplotype_block::variant_size`. -/

def unique_haplotype_block.variant_size (b : unique_haplotype_block) : ℕ :=
  b.variants_.length

/-- Member `unique_haplotype_block::clear` : all three containers are
emptied. -/

def unique_haplotype_block.clear (_b : unique_haplotype_block) :
    unique_haplotype_block :=
  ⟨[], [], []⟩

/-! ### reduced_haplotypes and its iterator -/

/-- State of `reduced_haplotypes` (src/src/unique_haplotype.hpp lines
338-346) restricted to the containers the iterator reads. -/

structure reduced_haplotypes where
  block_offsets_ : List ℕ
  blocks_ : List unique_haplotype_block
  variant_count_ : ℕ
deriving Repr, DecidableEq

/-- Value of `reduced_haplotypes::iterator` : a non-owning back-reference
to the parent collection plus a block index and a block-local variant
index (src/src/unique_haplotype.hpp lines 358-370). -/

structure rh_iterator where
  parent_ : reduced_haplotypes
  block_idx_ : ℕ
  variant_idx_ : ℕ
deriving Repr, DecidableEq

/-- Accessor `iterator::block_idx`. -/

def rh_iterator.block_idx (it : rh_iterator) : ℕ := it.block_idx_

/-- Accessor `iterator::block_local_idx`. -/

def rh_iterator.block_local_idx (it : rh_iterator) : ℕ := it.variant_idx_

/-- Free function `operator==(const reduced_haplotypes::iterator&, ...)`
(src/src/unique_haplotype.hpp lines 518-521): compares only
`block_idx()` and `block_local_idx()`. -/

def rh_iterator_eq (lhs rhs : rh_iterator) : Bool :=
  lhs.block_idx == rhs.block_idx && lhs.block_local_idx == rhs.block_local_idx

/-- Free function `operator!=` (lines 532-535): `!(lhs == rhs)`. -/

def rh_iterator_ne (lhs rhs : rh_iterator) : Bool :=
  !(rh_iterator_eq lhs rhs)

/-! ### Ratio gate of imputation::impute_chunk (src/src/imputation.cpp lines 43-59) -/

/-- Outcome of the min-ratio gate at the top of `impute_chunk`:
`failed` is the `return false` branch, `skipped` the `return true` skip
branch (reached before any HMM run or dosage write), `proceed` means
control falls through to the processing of the chunk. -/

inductive chunk_gate
  | failed
  | skipped
  | proceed
deriving Repr, DecidableEq

/-- The gate itself: `tar_ref_ratio = typed / full` compared against
`args.min_ratio()`; on a low ratio the chunk fails when
`args.fail_min_ratio()` and is skipped otherwise (imputation.cpp 49-59).
Float division and comparison are modelled exactly over `ℚ`. -/

def impute_chunk_ratio_gate (typed_count full_count : ℕ) (min_ratio : ℚ)
    (fail_min_ratio : Bool) : chunk_gate :=
  if (typed_count : ℚ) / (full_count : ℚ) < min_ratio then
    if fail_min_ratio then .failed else .skipped
  else .proceed

/-- Value returned by `impute_chunk` when the gate fires (`none` when
control proceeds past the gate). -/

def chunk_gate.early_return : chunk_gate → Option Bool
  | .failed => some false
  | .skipped => some true
  | .proceed => none

/-- Whether dosage output for the chunk can be produced at all: both
early-return branches leave the chunk without any dosage output. -/

def chunk_gate.produces_dosage_output : chunk_gate → Bool
  | .proceed => true
  | _ => false

/-! ### Haplotype groups and the temp-spill decision (imputation.cpp lines 95-202) -/

/-- Start indices of the haplotype-buffer groups: the loop
`for (i = 0; i < n_haps; i += buf)` of imputation.cpp line 95
(`n_haps = target_sites[0].gt.size()`, `buf = haplotype_buffer_size`). -/

def group_starts (i n_haps buf : ℕ) : List ℕ :=
  if _h : 0 < buf ∧ i < n_haps then i :: group_starts (i + buf) n_haps buf
  else []
termination_by n_haps - i
decreasing_by simp_wf; omega

/-- The condition under which a group writes a temp spill file, exactly
as in the source: `target_sites[0].gt.size() > haplotype_buffer_size`
(imputation.cpp line 126).  It does not depend on the group at all. -/

def temp_file_written (n_haps buf : ℕ) : Bool := buf < n_haps

/-- The final write phase of `impute_chunk`: merge the temp files when
at least one exists, otherwise write the dosage matrix directly
(imputation.cpp lines 175-202). -/

inductive final_write_action
  | merge_temp
  | write_direct
deriving Repr, DecidableEq

/-- Per-group temp decisions plus the chosen final write action of one
chunk of `impute_chunk`. -/

def impute_chunk_write_plan (n_haps buf : ℕ) : List Bool × final_write_action :=
  let spills := (group_starts 0 n_haps buf).map (fun _ => temp_file_written n_haps buf)
  (spills, if 0 < spills.count true then .merge_temp else .write_direct)

/-- Formalisation of the claim's phrase "the last group of the chunk": a
group starting at `i` (of size `min (n_haps - i) buf`) is last when it
reaches `n_haps`. -/

def is_last_group (n_haps buf i : ℕ) : Bool := n_haps ≤ i + min (n_haps - i) buf

/-! ### Chunk loop of the driver (src/unnamed/part_000 lines 65-76) -/

/-- The chunk loop of `run_imputation_test`:
`for (chunk_start = max(1, region.from); chunk_start <= end_pos;
chunk_start += chunk_size)` emitting the region
`[chunk_start, min(end_pos, chunk_start + chunk_size - 1)]`. -/

def chunk_regions (chunk_start end_pos chunk_size : ℕ) : List (ℕ × ℕ) :=
  if _h : 0 < chunk_size ∧ chunk_start ≤ end_pos then
    (chunk_start, min end_pos (chunk_start + chunk_size - 1)) ::
      chunk_regions (chunk_start + chunk_size) end_pos chunk_size
  else []
termination_by end_pos + 1 - chunk_start
decreasing_by simp_wf; omega

/-- The whole driver loop, starting from `max(1, region.from)`. -/

def run_chunk_loop (region_from end_pos chunk_size : ℕ) : List (ℕ × ℕ) :=
  chunk_regions (max 1 region_from) end_pos chunk_size

/-- The extended region computed at the top of `impute_chunk`
(imputation.cpp lines 5-10), with the source's `int64` arithmetic:
`[max(1, from - overlap), to + overlap]`. -/

def extended_region (overlap : ℕ) (r : ℕ × ℕ) : ℕ × ℕ :=
  ((max 1 ((r.1 : ℤ) - (overlap : ℤ))).toNat, r.2 + overlap)

/-- Closed form of the chunk list asserted by the claim: the `k`-th
chunk starts at `s + k * step` and ends at
`min end_pos (start + step - 1)`. -/

def chunk_regions_closed_form (s e step : ℕ) : List (ℕ × ℕ) :=
  (List.range (if s ≤ e then (e - s) / step + 1 else 0)).map
    (fun k => (s + k * step, min e (s + k * step + step - 1)))

/-! ### Trim (spec-modelled) -/

/-- Modelled from the spec: the implementation of
`unique_haplotype_block::trim` is not part of the source snapshot — only
its declaration and doc comment exist (src/src/unique_haplotype.hpp
lines 174-191).  Per the spec ("drops variants outside the inclusive
window; may empty the block") and the doc comment ("variants before
`min_pos` or after `max_pos` are erased, while the remaining variants
are preserved; if all variants are outside the range, the block is
cleared entirely; only the `variants_` container is modified
otherwise"): keep exactly the variants with
`min_pos ≤ pos ≤ max_pos`; when none remains, `clear()` the block. -/

def unique_haplotype_block.trim (b : unique_haplotype_block)
    (min_pos max_pos : ℕ) : unique_haplotype_block :=
  let kept := b.variants_.filter
    (fun v => decide (min_pos ≤ v.pos) && decide (v.pos ≤ max_pos))
  if kept.isEmpty then b.clear
  else { b with variants_ := kept }

/-! ### The per-group haplotype loop of impute_chunk (imputation.cpp lines 95-118) -/

/-- Target-variant genotype entry: `none` models the int8 end-of-vector
sentinel used for variable-ploidy padding; `some` carries the int8
value. -/

abbrev tgt_allele := Option ℤ

/-- Overwrite column `c` of a dosage matrix with per-row values `w r`;
this models the column writes `traverse_backward` performs at its
`out_idx` argument. -/

def write_column : List (List dcell) → ℕ → (ℕ → dcell) → List (List dcell)
  | [], _, _ => []
  | row :: rest, c, w => row.set c (w 0) :: write_column rest c (fun r => w (r + 1))

/-- Body of the parallel-for over one haplotype group (imputation.cpp
lines 110-118): a haplotype `i` whose genotype at the first target
variant is the end-of-vector sentinel is skipped (`return` before any
HMM call); otherwise the HMM runs and writes output column
`i % haplotype_buffer_size` of both matrices.  The values the HMM would
write are abstracted by the oracles `wd`/`wl`. -/

def group_body (gt0 : ℕ → tgt_allele) (buf : ℕ) (wd wl : ℕ → ℕ → dcell)
    (r : full_dosages_results) (i : ℕ) : full_dosages_results :=
  if gt0 i = none then r
  else
    { dosages_ := write_column r.dosages_ (i % buf) (wd i),
      loo_dosages_ := write_column r.loo_dosages_ (i % buf) (wl i) }

/-- One haplotype group: indices `i0, ..., i0 + group_size - 1`
processed in order (the parallel-for writes disjoint columns, so the
sequential fold is a faithful model of the barrier-joined loop). -/

def run_group (gt0 : ℕ → tgt_allele) (buf : ℕ) (wd wl : ℕ → ℕ → dcell)
    (r : full_dosages_results) (i0 group_size : ℕ) : full_dosages_results :=
  (List.range' i0 group_size).foldl (group_body gt0 buf wd wl) r

/-- Projection of column `c` of a matrix (out-of-range rows read as the
sentinel). -/

def column_read (m : List (List dcell)) (c : ℕ) : List dcell :=
  m.map (fun row => row.getD c none)

/-! ### Unique-haplotype block compression (spec-modelled)

The implementation of `unique_haplotype_block::compress_variant` is not
part of the source snapshot; only its declaration and doc comment exist
(src/src/unique_haplotype.hpp lines 53-104).  The definitions below are
modelled from the spec (§4.2 and the data-model invariants of §3): the
first variant seeds one column per distinct observed allele; subsequent
variants either match their current column's stored allele, fall into a
previously split alternate column carrying the same allele for this
position, or force a column split that appends a new column, back-fills
earlier variants from the split source and updates the map and
cardinalities; an end-of-vector allele must appear at the same slot as
in prior variants, and a mismatch fails the block.  Alleles are
`Option ℕ` (`none` is the end-of-vector sentinel); `ac` is the allele
count of the raw input, `(alleles.filterMap id).sum`. -/

/-- Dot product `Σ_c xs[c] * ys[c]` used to state the `ac` invariant. -/

def dot (xs ys : List ℕ) : ℕ := ((xs.zip ys).map (fun p => p.1 * p.2)).sum

/-- Index of the column of the variant under construction that already
carries allele `a`, if any. -/

def find_allele_col (gt : List ℕ) (a : ℕ) : Option ℕ :=
  match gt with
  | [] => none
  | x :: rest => if x = a then some 0 else (find_allele_col rest a).map (· + 1)

/-- State while seeding the block from its first variant: the
unique map, the cardinalities and the first variant's per-column
genotypes, all built incrementally. -/

structure first_state where
  um : List (Option ℕ)
  card : List ℕ
  gt : List ℕ
deriving Repr, DecidableEq

/-- One haplotype of the first variant: an end-of-vector allele becomes
a sentinel map entry; a seen allele joins its column; a new allele seeds
a new column. -/

def first_step (s : first_state) (al : Option ℕ) : first_state :=
  match al with
  | none => ⟨s.um ++ [none], s.card, s.gt⟩
  | some a =>
    match find_allele_col s.gt a with
    | some c => ⟨s.um ++ [some c], s.card.set c (s.card.getD c 0 + 1), s.gt⟩
    | none => ⟨s.um ++ [some s.gt.length], s.card ++ [1], s.gt ++ [a]⟩

/-- Record of one column split performed while absorbing the current
variant: haplotypes of column `src` observed with allele `allele_val`
have been moved to column `dest`. -/

structure split_rec where
  src : ℕ
  allele_val : ℕ
  dest : ℕ
deriving Repr, DecidableEq

/-- State while absorbing a subsequent variant: the (possibly updated)
unique map and cardinalities, the earlier variants (whose genotype rows
get back-filled on splits), the per-column genotypes of the new variant
(`none` = column not visited yet), the splits performed so far, and the
ploidy-consistency flag. -/

structure cv_state where
  um : List (Option ℕ)
  card : List ℕ
  old : List reference_variant
  new_gt : List (Option ℕ)
  splits : List split_rec
  ok : Bool

/-- One haplotype `(h, allele)` of a subsequent variant.  An
end-of-vector allele must meet a sentinel map entry (and vice versa),
otherwise the block fails.  Otherwise the haplotype's column either gets
this variant's allele assigned (first visitor), already matches it,
already has a split destination for this allele (the haplotype moves
there), or forces a fresh split: a new column is appended, earlier
variants are back-filled from the split source, and map and
cardinalities are updated. -/

def cv_step (st : cv_state) (ha : ℕ × Option ℕ) : cv_state :=
  if st.ok then
    match ha.2, st.um.getD ha.1 none with
    | none, none => st
    | none, some _ => { st with ok := false }
    | some _, none => { st with ok := false }
    | some a, some c =>
      match st.new_gt.getD c none with
      | none => { st with new_gt := st.new_gt.set c (some a) }
      | some x =>
        if x = a then st
        else
          match st.splits.find? (fun s => s.src == c && s.allele_val == a) with
          | some s =>
            { st with
              um := st.um.set ha.1 (some s.dest),
              card := (let card1 := st.card.set c (st.card.getD c 0 - 1);
                card1.set s.dest (card1.getD s.dest 0 + 1)) }
          | none =>
            { st with
              um := st.um.set ha.1 (some st.card.length),
              old := st.old.map (fun v => { v with gt := v.gt ++ [v.gt.getD c 0] }),
              new_gt := st.new_gt ++ [some a],
              card := (st.card.set c (st.card.getD c 0 - 1) ++ [1]),
              splits := st.splits ++ [⟨c, a, st.card.length⟩] }
  else st

/-- Modelled from the spec: `unique_haplotype_block::compress_variant`.
Fails on empty alleles; the first successful call seeds the block; a
subsequent call fails on a size mismatch or a ploidy inconsistency and
otherwise absorbs the variant, appending it (with its allele count and
per-column genotypes) to `variants_`. -/

def compress_variant (b : unique_haplotype_block) (site_info : reference_site_info)
    (alleles : List (Option ℕ)) : unique_haplotype_block × Bool :=
  if alleles.isEmpty then (b, false)
  else if b.variants_.isEmpty then
    let s := alleles.foldl first_step ⟨[], [], []⟩
    (⟨s.um, s.card, [⟨site_info, (alleles.filterMap id).sum, s.gt⟩]⟩, true)
  else if alleles.length ≠ b.unique_map_.length then (b, false)
  else
    let st := alleles.enum.foldl cv_step
      ⟨b.unique_map_, b.cardinalities_, b.variants_,
        List.replicate b.cardinalities_.length none, [], true⟩
    if st.ok then
      (⟨st.um, st.card,
        st.old ++ [⟨site_info, (alleles.filterMap id).sum,
          st.new_gt.map (fun o => o.getD 0)⟩]⟩, true)
    else (b, false)

/-- A default-constructed block. -/

def empty_block : unique_haplotype_block := ⟨[], [], []⟩

/-- State after a sequence of `compress_variant` calls starting from a
fresh block; a failed call leaves the block as it was, so the states
this function reaches are exactly the states reachable by sequences of
successful calls. -/

def run_compress (calls : List (reference_site_info × List (Option ℕ))) :
    unique_haplotype_block :=
  calls.foldl (fun b call =>
    let r := compress_variant b call.1 call.2
    if r.2 then r.1 else b) empty_block

/-- Strong invariant of a block: cardinalities are exact column
occupancy counts of the unique map, map entries are in range, every
variant's genotype row is column-sized, and every variant's allele
count is the cardinality-weighted sum of its genotype row. -/

def block_inv (b : unique_haplotype_block) : Prop :=
  (∀ c, c < b.cardinalities_.length →
    b.cardinalities_.getD c 0 = b.unique_map_.count (some c)) ∧
  (∀ c, some c ∈ b.unique_map_ → c < b.cardinalities_.length) ∧
  (∀ v ∈ b.variants_, v.gt.length = b.cardinalities_.length) ∧
  (∀ v ∈ b.variants_, v.ac = dot b.cardinalities_ v.gt)

/-- Invariant carried through the fold absorbing one subsequent variant:
`n` is the haplotype count, `done` the processed `(index, allele)`
pairs. -/

structure cv_inv (n : ℕ) (done : List (ℕ × Option ℕ)) (st : cv_state) : Prop where
  hcount : ∀ c, c < st.card.length → st.card.getD c 0 = st.um.count (some c)
  hrange : ∀ c, some c ∈ st.um → c < st.card.length
  hlen_old : ∀ v ∈ st.old, v.gt.length = st.card.length
  hac_old : ∀ v ∈ st.old, v.ac = dot st.card v.gt
  hnewlen : st.new_gt.length = st.card.length
  humlen : st.um.length = n
  hsplit : ∀ s ∈ st.splits, s.dest < st.card.length ∧
    st.new_gt.getD s.dest none = some s.allele_val ∧ s.src < st.card.length
  hsplit_gt : ∀ s ∈ st.splits, ∀ v ∈ st.old, v.gt.getD s.dest 0 = v.gt.getD s.src 0
  hdone : ∀ p ∈ done, (p.2 = none → st.um.getD p.1 none = none) ∧
    (∀ a, p.2 = some a → ∃ c, st.um.getD p.1 none = some c ∧
      st.new_gt.getD c none = some a)

/-- Invariant of the first-variant seeding fold. -/

structure first_inv (s : first_state) : Prop where
  hlen : s.card.length = s.gt.length
  hcount : ∀ c, c < s.card.length → s.card.getD c 0 = s.um.count (some c)
  hrange : ∀ c, some c ∈ s.um → c < s.card.length

/-- Concrete one-variant block used to witness the trim claim. -/

def trim_example_block : unique_haplotype_block :=
  ⟨[some 0], [1], [⟨⟨"chr1", 5, "v1", "A", "C"⟩, 1, [1]⟩]⟩

/-- Cons-unfolding of the closed form at a start position inside the
region. -/

theorem chunk_regions_closed_form_cons (s e step : ℕ) (hstep : 0 < step)
    (hse : s ≤ e) :
    chunk_regions_closed_form s e step =
      (s, min e (s + step - 1)) :: chunk_regions_closed_form (s + step) e step := by
  rw [chunk_regions_closed_form, chunk_regions_closed_form, if_pos hse]
  by_cases hstep2 : s + step ≤ e
  · have hsub : e - s - step = e - (s + step) := by omega
    have hdiv : (e - s) / step = (e - (s + step)) / step + 1 := by
      rw [Nat.div_eq_sub_div hstep (by omega), hsub]
    rw [hdiv, if_pos hstep2, List.range_succ_eq_map]
    simp only [List.map_cons, List.map_map, Nat.zero_mul, Nat.add_zero]
    refine congrArg₂ List.cons rfl ?_
    refine List.map_congr_left ?_
    intro k _
    simp only [Function.comp_apply]
    refine Prod.ext ?_ ?_ <;> simp only [Nat.succ_mul, Nat.add_mul, Nat.one_mul] <;> omega
  · have hdiv : (e - s) / step = 0 := Nat.div_eq_of_lt (by omega)
    rw [hdiv, if_neg hstep2]
    rw [show List.range 1 = [0] from rfl]
    simp

/-- Unfolding lemma: the chunk loop agrees with the claim's closed form
for any positive step. -/

theorem chunk_regions_eq_closed_form (step : ℕ) (hstep : 0 < step) :
    ∀ s e, chunk_regions s e step = chunk_regions_closed_form s e step := by
  have H : ∀ n s e, e + 1 - s ≤ n →
      chunk_regions s e step = chunk_regions_closed_form s e step := by
    intro n
    induction n with
    | zero =>
      intro s e hle
      rw [chunk_regions, chunk_regions_closed_form]
      have hse : ¬ s ≤ e := by omega
      simp [hse]
    | succ n ih =>
      intro s e hle
      by_cases hse : s ≤ e
      · rw [chunk_regions, dif_pos ⟨hstep, hse⟩, ih (s + step) e (by omega),
          chunk_regions_closed_form_cons s e step hstep hse]
      · rw [chunk_regions, chunk_regions_closed_form]
        simp [hse]
  intro s e
  exact H (e + 1 - s) s e (Nat.le_refl _)

/-- C1: the claim states that `--min-block-size N` sets `min_block_size()`
to `N`, `--max-block-size N` sets `max_block_size()` and `--slope-unit N`
sets `slope_unit()`, each leaving `min_ratio()` unchanged.  The source
instead assigns `min_ratio_` in all three branches and never touches the
three dedicated fields: after parsing `--min-block-size 20` the accessor
`min_block_size()` still returns the default 10 while `min_ratio()`
returns 20, and likewise for the other two options. -/

theorem c1_block_options_write_min_ratio :
    (prog_args.parse [.min_block_size_opt 20]).min_block_size = 10 ∧
    (prog_args.parse [.min_block_size_opt 20]).min_ratio = 20 ∧
    (prog_args.parse [.max_block_size_opt 70000]).max_block_size = 65535 ∧
    (prog_args.parse [.max_block_size_opt 70000]).min_ratio = 70000 ∧
    (prog_args.parse [.slope_unit_opt 5]).slope_unit = 10 ∧
    (prog_args.parse [.slope_unit_opt 5]).min_ratio = 5 := by
  refine ⟨rfl, ?_, rfl, ?_, rfl, ?_⟩ <;>
    simp [prog_args.parse, prog_args.apply_long_opt, prog_args.min_ratio]

/-- C2: the claim states that after `resize(n_rows, n_loo_rows,
n_columns)` the member `dimensions_loo()` returns the dimensions of
`loo_dosages_`, i.e. `(n_loo_rows, n_columns)`.  The source returns the
dimensions of `dosages_` instead: on a fresh object after
`resize(2, 3, 5)` it yields `(2, 5)` although `loo_dosages_` really has
3 rows of 5 columns. -/

theorem c2_dimensions_loo_returns_dosages_dims :
    ((full_dosages_results.mk [] []).resize 2 3 5).dimensions_loo = (2, 5) ∧
    ((full_dosages_results.mk [] []).resize 2 3 5).loo_dosages_.length = 3 ∧
    (((full_dosages_results.mk [] []).resize 2 3 5).loo_dosages_.headD []).length = 5 := by
  refine ⟨rfl, rfl, rfl⟩

/-- C6: on the stated domains the conversion functions are exact mutual
inverses: for `p ∈ (0, 0.9)`,
`cm_to_switch_prob (switch_prob_to_cm p) = p`, and for `r ∈ [0, 0.4)`,
`haldane (haldane_inverse r) = r` (exact equality over ℝ, hence within
any tolerance). -/

theorem c6_conversion_functions_mutual_inverses :
    (∀ p : ℝ, 0 < p → p < 0.9 →
      recombination.cm_to_switch_prob (recombination.switch_prob_to_cm p) = p) ∧
    (∀ r : ℝ, 0 ≤ r → r < 0.4 →
      recombination.haldane (recombination.haldane_inverse r) = r) := by
  constructor
  · intro p _hp0 hp9
    have h1 : (0:ℝ) < 1 - p := by nlinarith
    simp only [recombination.cm_to_switch_prob, recombination.switch_prob_to_cm,
      one_div, Real.log_inv]
    have h2 : -(100 * -Real.log (1 - p)) / 100 = Real.log (1 - p) := by ring
    rw [h2, Real.exp_log h1]
    ring
  · intro r _hr0 hr4
    have h1 : (0:ℝ) < 1 - 2 * r := by nlinarith
    simp only [recombination.haldane, recombination.haldane_inverse,
      one_div, Real.log_inv]
    have h2 : -(50 * -Real.log (1 - 2 * r)) / 50 = Real.log (1 - 2 * r) := by ring
    rw [h2, Real.exp_log h1]
    ring

/-- Witness for C6: both inverse identities applied at the concrete
points `p = 1/2` and `r = 1/4`. -/

theorem c6_conversion_functions_mutual_inverses_witness :
    recombination.cm_to_switch_prob (recombination.switch_prob_to_cm (1/2)) = 1/2 ∧
    recombination.haldane (recombination.haldane_inverse (1/4)) = 1/4 :=
  ⟨c6_conversion_functions_mutual_inverses.1 (1/2) (by norm_num) (by norm_num),
   c6_conversion_functions_mutual_inverses.2 (1/4) (by norm_num) (by norm_num)⟩

/-- C9: `operator==` on `reduced_haplotypes::iterator` compares only the
block index and the block-local variant index, ignoring the parent
collection, and `operator!=` is its negation: this holds for iterators
built over two arbitrary (possibly different) parent collections. -/

theorem c9_iterator_eq_ignores_parent (p1 p2 : reduced_haplotypes)
    (b1 v1 b2 v2 : ℕ) :
    (rh_iterator_eq ⟨p1, b1, v1⟩ ⟨p2, b2, v2⟩ = true ↔ b1 = b2 ∧ v1 = v2) ∧
    (rh_iterator_ne ⟨p1, b1, v1⟩ ⟨p2, b2, v2⟩ = true ↔ ¬(b1 = b2 ∧ v1 = v2)) := by
  constructor
  · simp [rh_iterator_eq, rh_iterator.block_idx, rh_iterator.block_local_idx]
  · simp only [rh_iterator_ne, rh_iterator_eq, rh_iterator.block_idx,
      rh_iterator.block_local_idx, Bool.not_eq_true', Bool.and_eq_false_iff,
      beq_eq_false_iff_ne, ne_eq, not_and]
    tauto

/-- Helper: writing one column leaves every other column unchanged and
preserves the row count. -/

theorem write_column_preserves_other (c c' : ℕ) (hcc : c' ≠ c) :
    ∀ (m : List (List dcell)) (w : ℕ → dcell),
      column_read (write_column m c w) c' = column_read m c' ∧
      (write_column m c w).length = m.length := by
  intro m
  induction m with
  | nil => intro w; exact ⟨rfl, rfl⟩
  | cons row rest ih =>
    intro w
    refine ⟨?_, ?_⟩
    · simp only [write_column, column_read, List.map_cons]
      congr 1
      · simp only [List.getD_eq_getElem?_getD]
        rw [List.getElem?_set_ne (Ne.symm hcc)]
      · exact (ih _).1
    · simp only [write_column, List.length_cons]
      rw [(ih _).2]

/-- C3 counterexample: the claim states a temp spill file is written for
a group only when that group is not the last group of the chunk.  With 3
haplotypes and a buffer of 2 the chunk has groups starting at 0 and 2;
the group starting at 2 is the last group, yet the source's spill
condition (`gt.size() > haplotype_buffer_size`) is true for it, so a
temp file is written for the last group as well. -/

theorem c3_counterexample_last_group_spills :
    2 ∈ group_starts 0 3 2 ∧
    is_last_group 3 2 2 = true ∧
    temp_file_written 3 2 = true := by
  have hgs : group_starts 0 3 2 = [0, 2] := by
    rw [group_starts, dif_pos (by norm_num : 0 < 2 ∧ 0 < 3)]
    rw [group_starts, dif_pos (by norm_num : 0 < 2 ∧ 2 < 3)]
    rw [group_starts, dif_neg (by norm_num)]
  rw [hgs]
  refine ⟨by norm_num, rfl, rfl⟩

/-- C3 (amended): a temp spill file is written for every haplotype group
of the chunk exactly when the chunk's total haplotype count exceeds the
haplotype buffer size (that is, when the chunk splits into more than one
group) — including for the last group; the temp files are merged into
the final writer when at least one was produced, and the dosage matrix
is written directly otherwise. -/

theorem c3_temp_spill_iff_multiple_groups (n_haps buf : ℕ)
    (hbuf : 0 < buf) (hn : 0 < n_haps) :
    (impute_chunk_write_plan n_haps buf).1 =
      List.replicate (group_starts 0 n_haps buf).length (temp_file_written n_haps buf) ∧
    (temp_file_written n_haps buf = true ↔ buf < n_haps) ∧
    ((impute_chunk_write_plan n_haps buf).2 = .merge_temp ↔ buf < n_haps) ∧
    ((impute_chunk_write_plan n_haps buf).2 = .write_direct ↔ ¬ buf < n_haps) := by
  have hlen : 0 < (group_starts 0 n_haps buf).length := by
    rw [group_starts, dif_pos ⟨hbuf, hn⟩]
    simp
  have hmap : (impute_chunk_write_plan n_haps buf).1 =
      List.replicate (group_starts 0 n_haps buf).length (temp_file_written n_haps buf) := by
    simp [impute_chunk_write_plan]
  refine ⟨hmap, by simp [temp_file_written], ?_, ?_⟩
  · by_cases hbn : buf < n_haps
    · simp [impute_chunk_write_plan, temp_file_written, hbn, List.count_replicate, hlen]
    · simp [impute_chunk_write_plan, temp_file_written, hbn, List.count_replicate]
  · by_cases hbn : buf < n_haps
    · simp [impute_chunk_write_plan, temp_file_written, hbn, List.count_replicate, hlen]
    · simp [impute_chunk_write_plan, temp_file_written, hbn, List.count_replicate]

/-- Witness for C3 (amended) at `n_haps = 3`, `buf = 2`. -/

theorem c3_temp_spill_iff_multiple_groups_witness :
    (impute_chunk_write_plan 3 2).1 =
      List.replicate (group_starts 0 3 2).length (temp_file_written 3 2) ∧
    (temp_file_written 3 2 = true ↔ 2 < 3) ∧
    ((impute_chunk_write_plan 3 2).2 = .merge_temp ↔ 2 < 3) ∧
    ((impute_chunk_write_plan 3 2).2 = .write_direct ↔ ¬ 2 < 3) :=
  c3_temp_spill_iff_multiple_groups 3 2 (by norm_num) (by norm_num)

/-- C4: for a chunk with non-empty full reference data, when
`typed / full < min_ratio` the gate returns `false` from the chunk if
`fail_min_ratio` is set and returns `true` without producing any dosage
output otherwise; when the ratio is at or above `min_ratio`, processing
proceeds. -/

theorem c4_min_ratio_gate (typed_count full_count : ℕ) (min_ratio : ℚ)
    (fmr : Bool) (_hfull : 0 < full_count) :
    ((typed_count : ℚ) / (full_count : ℚ) < min_ratio →
      (fmr = true →
        (impute_chunk_ratio_gate typed_count full_count min_ratio fmr).early_return
          = some false) ∧
      (fmr = false →
        (impute_chunk_ratio_gate typed_count full_count min_ratio fmr).early_return
          = some true ∧
        (impute_chunk_ratio_gate typed_count full_count min_ratio fmr).produces_dosage_output
          = false)) ∧
    (min_ratio ≤ (typed_count : ℚ) / (full_count : ℚ) →
      impute_chunk_ratio_gate typed_count full_count min_ratio fmr = .proceed) := by
  constructor
  · intro hlt
    constructor
    · intro hf
      subst hf
      simp [impute_chunk_ratio_gate, hlt, chunk_gate.early_return]
    · intro hf
      subst hf
      simp [impute_chunk_ratio_gate, hlt, chunk_gate.early_return,
        chunk_gate.produces_dosage_output]
  · intro hge
    have hnl : ¬ (typed_count : ℚ) / (full_count : ℚ) < min_ratio := not_lt.mpr hge
    simp [impute_chunk_ratio_gate, hnl]

/-- Witness for C4: 1 typed / 100 full sites against `min_ratio = 1/2`
in both behaviors, and 60/100 against `1/2` for the proceed case. -/

theorem c4_min_ratio_gate_witness :
    (impute_chunk_ratio_gate 1 100 (1/2) true).early_return = some false ∧
    (impute_chunk_ratio_gate 1 100 (1/2) false).early_return = some true ∧
    (impute_chunk_ratio_gate 1 100 (1/2) false).produces_dosage_output = false ∧
    impute_chunk_ratio_gate 60 100 (1/2) true = .proceed := by
  have h1 := (c4_min_ratio_gate 1 100 (1/2) true (by norm_num)).1 (by norm_num)
  have h2 := (c4_min_ratio_gate 1 100 (1/2) false (by norm_num)).1 (by norm_num)
  have h3 := (c4_min_ratio_gate 60 100 (1/2) true (by norm_num)).2 (by norm_num)
  exact ⟨h1.1 rfl, (h2.2 rfl).1, (h2.2 rfl).2, h3⟩

/-- C7: the chunk loop of the driver produces exactly the chunks
`(max 1 region.from + k * chunk_size,
min (end_pos, start + chunk_size - 1))` for `k` up to the last start not
exceeding the resolved end position, and the extended region handed to
the loaders by `impute_chunk` is
`[max 1 (chunk_start - overlap), chunk_end + overlap]` (same
chromosome; the chromosome string is threaded through unchanged by the
source and is not part of the arithmetic model). -/

theorem c7_chunk_loop_and_extended_region
    (region_from end_pos chunk_size overlap cs ce : ℕ)
    (hstep : 0 < chunk_size) :
    run_chunk_loop region_from end_pos chunk_size =
      chunk_regions_closed_form (max 1 region_from) end_pos chunk_size ∧
    extended_region overlap (cs, ce) = (max 1 (cs - overlap), ce + overlap) := by
  refine ⟨chunk_regions_eq_closed_form chunk_size hstep _ _, ?_⟩
  refine Prod.ext ?_ rfl
  simp only [extended_region]
  omega

/-- Witness for C7 at `region.from = 5`, `end_pos = 100`,
`chunk_size = 30`, `overlap = 7`, chunk `(31, 60)`. -/

theorem c7_chunk_loop_and_extended_region_witness :
    run_chunk_loop 5 100 30 = chunk_regions_closed_form (max 1 5) 100 30 ∧
    extended_region 7 (31, 60) = (max 1 (31 - 7), 60 + 7) :=
  c7_chunk_loop_and_extended_region 5 100 30 7 31 60 (by norm_num)

/-- Helper: reading a `some` entry through `getD` shows the index is in
range and the entry is a member. -/

theorem getD_eq_some_imp {l : List (Option ℕ)} {h c : ℕ}
    (he : l.getD h none = some c) : h < l.length ∧ some c ∈ l := by
  by_cases hl : h < l.length
  · refine ⟨hl, ?_⟩
    rw [List.getD_eq_getElem?_getD, List.getElem?_eq_getElem hl] at he
    simp only [Option.getD_some] at he
    rw [← he]
    exact List.getElem_mem hl
  · rw [List.getD_eq_getElem?_getD, List.getElem?_eq_none (by omega)] at he
    simp at he

/-- Helper: `getD` after `set` at the written index. -/

theorem getD_set_self {α : Type} (l : List α) (i : ℕ) (a d : α)
    (h : i < l.length) : (l.set i a).getD i d = a := by
  rw [List.getD_eq_getElem?_getD, List.getElem?_set_self h]
  rfl

/-- Helper: `getD` after `set` at another index. -/

theorem getD_set_ne {α : Type} (l : List α) {i j : ℕ} (a d : α)
    (h : i ≠ j) : (l.set i a).getD j d = l.getD j d := by
  rw [List.getD_eq_getElem?_getD, List.getElem?_set_ne h,
    ← List.getD_eq_getElem?_getD]

/-- Helper: `getD` of an append, index inside the left part. -/

theorem getD_append_left {α : Type} (l₁ l₂ : List α) (i : ℕ) (d : α)
    (h : i < l₁.length) : (l₁ ++ l₂).getD i d = l₁.getD i d := by
  rw [List.getD_eq_getElem?_getD, List.getElem?_append_left h,
    ← List.getD_eq_getElem?_getD]

/-- Helper: `getD` of a singleton append at the boundary index. -/

theorem getD_append_len {α : Type} (l : List α) (a d : α) :
    (l ++ [a]).getD l.length d = a := by
  rw [List.getD_eq_getElem?_getD, List.getElem?_append_right (Nat.le_refl _)]
  simp

/-- Helper: members of `l.set i v` are `v` or members of `l`. -/

theorem mem_of_mem_set {α : Type} : ∀ {l : List α} {i : ℕ} {v x : α},
    x ∈ l.set i v → x = v ∨ x ∈ l := by
  intro l
  induction l with
  | nil => intro i v x hx; simp [List.set] at hx
  | cons y t ih =>
    intro i v x hx
    cases i with
    | zero =>
      rcases List.mem_cons.mp hx with h | h
      · exact Or.inl h
      · exact Or.inr (List.mem_cons_of_mem _ h)
    | succ i =>
      rcases List.mem_cons.mp hx with h | h
      · exact Or.inr (h ▸ List.mem_cons_self _ _)
      · rcases ih h with h' | h'
        · exact Or.inl h'
        · exact Or.inr (List.mem_cons_of_mem _ h')

/-- Helper: how `count` changes under `set`, in additive form. -/

theorem count_set_option : ∀ (l : List (Option ℕ)) (h : ℕ) (v a : Option ℕ),
    h < l.length →
    (l.set h v).count a + (if l.getD h none = a then 1 else 0)
      = l.count a + (if v = a then 1 else 0) := by
  intro l
  induction l with
  | nil => intro h v a hh; simp at hh
  | cons x t ih =>
    intro h v a hh
    cases h with
    | zero =>
      have h1 : (x :: t).set 0 v = v :: t := rfl
      rw [h1, List.getD_cons_zero, List.count_cons, List.count_cons]
      simp only [beq_iff_eq]
      split_ifs <;> omega
    | succ h =>
      have ht := ih h v a (by simpa using hh)
      have h1 : (x :: t).set (h + 1) v = x :: t.set h v := rfl
      rw [h1, List.getD_cons_succ, List.count_cons, List.count_cons]
      simp only [beq_iff_eq]
      split_ifs at ht ⊢ <;> omega

/-- Helper: `dot` on two cons cells. -/

theorem dot_cons (x y : ℕ) (xs ys : List ℕ) :
    dot (x :: xs) (y :: ys) = x * y + dot xs ys := by
  simp [dot]

/-- Helper: how `dot` changes when one entry of the left list is
overwritten, in additive form. -/

theorem dot_set_add : ∀ (xs ys : List ℕ) (i v : ℕ), i < xs.length →
    xs.length = ys.length →
    dot (xs.set i v) ys + xs.getD i 0 * ys.getD i 0
      = dot xs ys + v * ys.getD i 0 := by
  intro xs
  induction xs with
  | nil => intro ys i v hi _; simp at hi
  | cons x t ih =>
    intro ys i v hi hl
    cases ys with
    | nil => simp at hl
    | cons y u =>
      cases i with
      | zero =>
        have h1 : (x :: t).set 0 v = v :: t := rfl
        rw [h1, dot_cons, dot_cons, List.getD_cons_zero, List.getD_cons_zero]
        omega
      | succ i =>
        have h1 : (x :: t).set (i + 1) v = x :: t.set i v := rfl
        rw [h1, dot_cons, dot_cons, List.getD_cons_succ, List.getD_cons_succ]
        have := ih u i v (by simpa using hi) (by simpa using hl)
        omega

/-- Helper: `dot` over a singleton append on both sides. -/

theorem dot_append_singleton : ∀ (xs ys : List ℕ) (x y : ℕ),
    xs.length = ys.length →
    dot (xs ++ [x]) (ys ++ [y]) = dot xs ys + x * y := by
  intro xs
  induction xs with
  | nil =>
    intro ys x y hl
    cases ys with
    | nil => simp [dot]
    | cons b u => simp at hl
  | cons a t ih =>
    intro ys x y hl
    cases ys with
    | nil => simp at hl
    | cons b u =>
      simp only [List.cons_append]
      rw [dot_cons, dot_cons, ih u x y (by simpa using hl)]
      omega

/-- Helper: sums of pointwise additions of maps. -/

theorem sum_map_add {α : Type} : ∀ (l : List α) (A B : α → ℕ),
    (l.map (fun c => A c + B c)).sum = (l.map A).sum + (l.map B).sum := by
  intro l
  induction l with
  | nil => intro A B; rfl
  | cons x t ih =>
    intro A B
    simp only [List.map_cons, List.sum_cons, ih]
    omega

/-- Helper: a single-spike sum over an initial range. -/

theorem sum_map_ite_eq : ∀ (C a : ℕ) (f : ℕ → ℕ), a < C →
    ((List.range C).map (fun c => if c = a then f c else 0)).sum = f a := by
  intro C
  induction C with
  | zero => intro a f h; omega
  | succ C ih =>
    intro a f h
    rw [List.range_succ, List.map_append, List.sum_append]
    by_cases hc : a < C
    · rw [ih a f hc]
      simp only [List.map_cons, List.map_nil, List.sum_cons, List.sum_nil]
      rw [if_neg (by omega)]
      omega
    · have ha : a = C := by omega
      subst ha
      have hz : ∀ c ∈ List.range a, (if c = a then f c else 0) = 0 := by
        intro c hc'
        rw [List.mem_range] at hc'
        rw [if_neg (by omega)]
      rw [List.map_congr_left hz]
      simp

/-- Helper: indexing a list over the range of its length recovers the
list. -/

theorem map_getD_range {α : Type} : ∀ (l : List α) (d : α),
    (List.range l.length).map (fun i => l.getD i d) = l := by
  intro l
  induction l with
  | nil => intro d; rfl
  | cons x t ih =>
    intro d
    rw [List.length_cons, List.range_succ_eq_map, List.map_cons, List.map_map]
    refine congrArg₂ List.cons rfl ?_
    rw [show ((fun i => (x :: t).getD i d) ∘ (· + 1)) = (fun i => t.getD i d) from ?_]
    · exact ih d
    · funext i
      simp [List.getD_cons_succ]

/-- Helper: `dot` as an index-sum over the range of the length. -/

theorem dot_eq_range : ∀ (xs ys : List ℕ), xs.length = ys.length →
    dot xs ys
      = ((List.range xs.length).map (fun c => xs.getD c 0 * ys.getD c 0)).sum := by
  intro xs
  induction xs with
  | nil => intro ys _; simp [dot]
  | cons x t ih =>
    intro ys h
    cases ys with
    | nil => simp at h
    | cons y u =>
      rw [dot_cons, List.length_cons, List.range_succ_eq_map, List.map_cons,
        List.map_map, List.sum_cons, ih u (by simpa using h)]
      refine congrArg₂ (· + ·) rfl ?_
      refine congrArg List.sum (List.map_congr_left ?_)
      intro c _
      simp [List.getD_cons_succ]

/-- Helper: a cardinality-weighted range-sum collapses to a sum over the
map entries. -/

theorem sum_count_mul : ∀ (um : List (Option ℕ)) (C : ℕ) (f : ℕ → ℕ),
    (∀ c, some c ∈ um → c < C) →
    ((List.range C).map (fun c => um.count (some c) * f c)).sum
      = (um.map (fun o => match o with | some c => f c | none => 0)).sum := by
  intro um
  induction um with
  | nil =>
    intro C f _
    have hz : ∀ c ∈ List.range C, ([] : List (Option ℕ)).count (some c) * f c = 0 := by
      intro c _
      simp
    rw [List.map_congr_left hz]
    simp
  | cons o t ih =>
    intro C f h
    have ht := ih C f (fun c hc => h c (List.mem_cons_of_mem _ hc))
    have hcnt : ∀ c : ℕ, (o :: t).count (some c)
        = t.count (some c) + (if o = some c then 1 else 0) := by
      intro c
      rw [List.count_cons]
      simp [beq_iff_eq]
    have hsplit2 : ((List.range C).map (fun c => (o :: t).count (some c) * f c)).sum
        = ((List.range C).map (fun c => t.count (some c) * f c)).sum
          + ((List.range C).map (fun c => (if o = some c then 1 else 0) * f c)).sum := by
      rw [← sum_map_add]
      refine congrArg List.sum (List.map_congr_left ?_)
      intro c _
      rw [hcnt c]
      ring
    rw [hsplit2, ht]
    cases o with
    | none =>
      have hz : ∀ c ∈ List.range C, (if (none : Option ℕ) = some c then 1 else 0) * f c = 0 := by
        intro c _
        rw [if_neg (by simp)]
        ring
      rw [List.map_congr_left hz]
      simp
    | some a =>
      have hspike : ∀ c ∈ List.range C,
          (if (some a : Option ℕ) = some c then 1 else 0) * f c
            = (if c = a then f c else 0) := by
        intro c _
        by_cases hca : c = a
        · subst hca
          simp
        · rw [if_neg (by simpa using Ne.symm hca), if_neg hca]
          ring
      rw [List.map_congr_left hspike, sum_map_ite_eq C a f (h a (List.mem_cons_self _ _))]
      simp only [List.map_cons, List.sum_cons]
      omega

/-- Helper: the number of non-sentinel map entries plus the sentinel
count is the map length. -/

theorem sum_option_indicator : ∀ (um : List (Option ℕ)),
    (um.map (fun o => match o with | some _ => 1 | none => 0)).sum
      + um.count none = um.length := by
  intro um
  induction um with
  | nil => rfl
  | cons o t ih =>
    cases o with
    | none =>
      have hc : (none :: t).count none = t.count none + 1 := by
        rw [List.count_cons]
        simp
      rw [hc]
      simp only [List.map_cons, List.sum_cons, List.length_cons]
      omega
    | some a =>
      have hc : ((some a : Option ℕ) :: t).count none = t.count none := by
        rw [List.count_cons]
        simp
      rw [hc]
      simp only [List.map_cons, List.sum_cons, List.length_cons]
      omega

/-- Helper: summing `Option.getD 0` over option values equals summing
the present values. -/

theorem sum_getD0_eq_filterMap : ∀ (l : List (Option ℕ)),
    (l.map (fun o => o.getD 0)).sum = (l.filterMap id).sum := by
  intro l
  induction l with
  | nil => rfl
  | cons o t ih =>
    cases o with
    | none => simpa using ih
    | some a => simpa using congrArg (a + ·) ih

/-- Helper: `getD` through a `map`, inside the length. -/

theorem getD_map_lt {α β : Type} (f : α → β) (l : List α) (i : ℕ) (d : β)
    (d' : α) (h : i < l.length) : (l.map f).getD i d = f (l.getD i d') := by
  rw [List.getD_eq_getElem?_getD, List.getElem?_map, List.getElem?_eq_getElem h,
    List.getD_eq_getElem?_getD, List.getElem?_eq_getElem h]
  rfl

/-- Helper: `getElem?` at an in-range index yields the `getD` value. -/

theorem getElem?_eq_some_getD {α : Type} (l : List α) (i : ℕ) (d : α)
    (h : i < l.length) : l[i]? = some (l.getD i d) := by
  rw [List.getElem?_eq_getElem h, List.getD_eq_getElem?_getD,
    List.getElem?_eq_getElem h]
  rfl

/-- Helper: a found allele column is in range and carries the allele. -/

theorem find_allele_col_spec : ∀ (l : List ℕ) (a c : ℕ),
    find_allele_col l a = some c → c < l.length ∧ l.getD c 0 = a := by
  intro l
  induction l with
  | nil => intro a c h; simp [find_allele_col] at h
  | cons x t ih =>
    intro a c h
    rw [find_allele_col] at h
    by_cases hx : x = a
    · rw [if_pos hx] at h
      obtain rfl : (0 : ℕ) = c := Option.some.inj h
      exact ⟨by simp, by simpa using hx⟩
    · rw [if_neg hx] at h
      cases hfc : find_allele_col t a with
      | none =>
        rw [hfc] at h
        simp at h
      | some c' =>
        rw [hfc] at h
        simp only [Option.map_some'] at h
        obtain rfl : c' + 1 = c := Option.some.inj h
        obtain ⟨h1, h2⟩ := ih a c' hfc
        refine ⟨by simp; omega, ?_⟩
        simpa [List.getD_cons_succ] using h2

/-- Helper: one step of the first-variant fold preserves the invariant
and accounts one allele in the `dot` sum. -/

theorem first_step_inv (s : first_state) (al : Option ℕ) (hs : first_inv s) :
    first_inv (first_step s al) ∧
      dot (first_step s al).card (first_step s al).gt
        = dot s.card s.gt + al.getD 0 := by
  cases al with
  | none =>
    have hstep : first_step s none = ⟨s.um ++ [none], s.card, s.gt⟩ := rfl
    rw [hstep]
    refine ⟨⟨hs.hlen, ?_, ?_⟩, by simp⟩
    · intro c hc
      show s.card.getD c 0 = (s.um ++ [none]).count (some c)
      rw [List.count_append, hs.hcount c hc]
      simp
    · intro c hc
      rcases List.mem_append.mp hc with h | h
      · exact hs.hrange c h
      · simp at h
  | some a =>
    cases hfc : find_allele_col s.gt a with
    | some c0 =>
      obtain ⟨hc0lt, hc0val⟩ := find_allele_col_spec s.gt a c0 hfc
      have hc0lt' : c0 < s.card.length := by rw [hs.hlen]; exact hc0lt
      have hstep : first_step s (some a)
          = ⟨s.um ++ [some c0], s.card.set c0 (s.card.getD c0 0 + 1), s.gt⟩ := by
        simp [first_step, hfc]
      rw [hstep]
      refine ⟨⟨?_, ?_, ?_⟩, ?_⟩
      · simpa using hs.hlen
      · intro c hc
        simp only [List.length_set] at hc
        rw [List.count_append]
        by_cases hcc : c = c0
        · subst hcc
          rw [getD_set_self _ _ _ _ hc]
          simp only [List.count_cons, List.count_nil]
          rw [hs.hcount c hc]
          simp
        · rw [getD_set_ne _ _ _ (Ne.symm hcc)]
          have : ([some c0] : List (Option ℕ)).count (some c) = 0 := by
            simp [List.count_cons]
            exact fun he => hcc he.symm
          rw [this, hs.hcount c hc]
          omega
      · intro c hc
        simp only [List.length_set]
        rcases List.mem_append.mp hc with h | h
        · exact hs.hrange c h
        · simp only [List.mem_cons, List.not_mem_nil, or_false] at h
          obtain rfl : c = c0 := Option.some.inj h
          exact hc0lt'
      · have hadd := dot_set_add s.card s.gt c0 (s.card.getD c0 0 + 1) hc0lt' hs.hlen
        simp only [Option.getD_some]
        rw [hc0val] at hadd
        have hx : (s.card.getD c0 0 + 1) * a = s.card.getD c0 0 * a + a := by ring
        omega
    | none =>
      have hstep : first_step s (some a)
          = ⟨s.um ++ [some s.gt.length], s.card ++ [1], s.gt ++ [a]⟩ := by
        simp [first_step, hfc]
      rw [hstep]
      refine ⟨⟨?_, ?_, ?_⟩, ?_⟩
      · simp [hs.hlen]
      · intro c hc
        simp only [List.length_append, List.length_cons, List.length_nil] at hc
        rw [List.count_append]
        by_cases hcc : c < s.card.length
        · rw [getD_append_left _ _ _ _ hcc]
          have hne : ([some s.gt.length] : List (Option ℕ)).count (some c) = 0 := by
            simp [List.count_cons]
            intro he
            rw [← hs.hlen] at he
            omega
          rw [hne, hs.hcount c hcc]
          omega
        · have hceq : c = s.card.length := by omega
          subst hceq
          rw [getD_append_len]
          have hmem : some s.card.length ∉ s.um := by
            intro hmem
            exact absurd (hs.hrange _ hmem) (by omega)
          rw [List.count_eq_zero.mpr hmem]
          have : ([some s.gt.length] : List (Option ℕ)).count (some s.card.length) = 1 := by
            rw [hs.hlen]
            simp
          omega
      · intro c hc
        simp only [List.length_append, List.length_cons, List.length_nil]
        rcases List.mem_append.mp hc with h | h
        · have := hs.hrange c h
          omega
        · simp only [List.mem_cons, List.not_mem_nil, or_false] at h
          obtain rfl : c = s.gt.length := Option.some.inj h
          rw [hs.hlen]
          omega
      · rw [dot_append_singleton _ _ _ _ hs.hlen]
        simp

/-- Helper: the whole first-variant fold preserves the invariant and
sums the present alleles. -/

theorem first_fold_inv : ∀ (alleles : List (Option ℕ)) (s : first_state),
    first_inv s →
    first_inv (alleles.foldl first_step s) ∧
      dot (alleles.foldl first_step s).card (alleles.foldl first_step s).gt
        = dot s.card s.gt + (alleles.filterMap id).sum := by
  intro alleles
  induction alleles with
  | nil => intro s hs; exact ⟨hs, by simp⟩
  | cons al t ih =>
    intro s hs
    obtain ⟨hinv', hdot'⟩ := first_step_inv s al hs
    obtain ⟨hinv'', hdot''⟩ := ih (first_step s al) hinv'
    refine ⟨by simpa using hinv'', ?_⟩
    rw [List.foldl_cons] at *
    rw [hdot'', hdot']
    cases al with
    | none => simp
    | some a => simp; omega

/-- Helper: absorbing-fold invariant after a haplotype whose
end-of-vector allele matches its sentinel map entry (no state
change). -/

theorem cv_step_inv_eov (n : ℕ) (done : List (ℕ × Option ℕ)) (st : cv_state)
    (h : ℕ) (hum : st.um.getD h none = none) (inv : cv_inv n done st) :
    cv_inv n (done ++ [(h, none)]) st := by
  refine ⟨inv.hcount, inv.hrange, inv.hlen_old, inv.hac_old, inv.hnewlen,
    inv.humlen, inv.hsplit, inv.hsplit_gt, ?_⟩
  intro q hq
  rcases List.mem_append.mp hq with hq | hq
  · exact inv.hdone q hq
  · simp only [List.mem_cons, List.not_mem_nil, or_false] at hq
    subst hq
    exact ⟨fun _ => hum, fun a ha => by simp at ha⟩

/-- Helper: absorbing-fold invariant after a haplotype whose allele
already matches its column's value for this variant (no state
change). -/

theorem cv_step_inv_match (n : ℕ) (done : List (ℕ × Option ℕ)) (st : cv_state)
    (h a c : ℕ) (hum : st.um.getD h none = some c)
    (hng : st.new_gt.getD c none = some a) (inv : cv_inv n done st) :
    cv_inv n (done ++ [(h, some a)]) st := by
  refine ⟨inv.hcount, inv.hrange, inv.hlen_old, inv.hac_old, inv.hnewlen,
    inv.humlen, inv.hsplit, inv.hsplit_gt, ?_⟩
  intro q hq
  rcases List.mem_append.mp hq with hq | hq
  · exact inv.hdone q hq
  · simp only [List.mem_cons, List.not_mem_nil, or_false] at hq
    subst hq
    refine ⟨fun hcon => by simp at hcon, fun a' ha' => ?_⟩
    obtain rfl : a = a' := Option.some.inj ha'
    exact ⟨c, hum, hng⟩

/-- Helper: absorbing-fold invariant after the first visitor of a
column assigns this variant's allele to it. -/

theorem cv_step_inv_assign (n : ℕ) (done : List (ℕ × Option ℕ)) (st : cv_state)
    (h a c : ℕ) (hum : st.um.getD h none = some c)
    (hng : st.new_gt.getD c none = none) (inv : cv_inv n done st) :
    cv_inv n (done ++ [(h, some a)])
      { st with new_gt := st.new_gt.set c (some a) } := by
  have hcmem := getD_eq_some_imp hum
  have hclt : c < st.card.length := inv.hrange c hcmem.2
  have hcgt : c < st.new_gt.length := by rw [inv.hnewlen]; exact hclt
  refine ⟨inv.hcount, inv.hrange, inv.hlen_old, inv.hac_old, ?_, inv.humlen,
    ?_, inv.hsplit_gt, ?_⟩
  · simpa using inv.hnewlen
  · intro s hs
    obtain ⟨hd1, hd2, hd3⟩ := inv.hsplit s hs
    refine ⟨hd1, ?_, hd3⟩
    show (st.new_gt.set c (some a)).getD s.dest none = some s.allele_val
    have hne : c ≠ s.dest := by
      intro he
      rw [he, hd2] at hng
      exact Option.noConfusion hng
    rw [getD_set_ne _ _ _ hne]
    exact hd2
  · intro q hq
    rcases List.mem_append.mp hq with hq | hq
    · obtain ⟨hq1, hq2⟩ := inv.hdone q hq
      refine ⟨hq1, ?_⟩
      intro a' ha'
      obtain ⟨cq, hcq1, hcq2⟩ := hq2 a' ha'
      refine ⟨cq, hcq1, ?_⟩
      show (st.new_gt.set c (some a)).getD cq none = some a'
      have hne : c ≠ cq := by
        intro he
        rw [he, hcq2] at hng
        exact Option.noConfusion hng
      rw [getD_set_ne _ _ _ hne]
      exact hcq2
    · simp only [List.mem_cons, List.not_mem_nil, or_false] at hq
      subst hq
      refine ⟨fun hcon => by simp at hcon, fun a' ha' => ?_⟩
      obtain rfl : a = a' := Option.some.inj ha'
      refine ⟨c, hum, ?_⟩
      show (st.new_gt.set c (some a)).getD c none = some a
      rw [getD_set_self _ _ _ _ hcgt]

/-- Helper: absorbing-fold invariant after a haplotype moves to an
existing split destination column. -/

theorem cv_step_inv_reuse (n : ℕ) (done : List (ℕ × Option ℕ)) (st : cv_state)
    (h a c x : ℕ) (s : split_rec)
    (hfresh : h ∉ done.map Prod.fst)
    (hum : st.um.getD h none = some c)
    (hng : st.new_gt.getD c none = some x) (hxa : x ≠ a)
    (hfind : st.splits.find? (fun q => q.src == c && q.allele_val == a) = some s)
    (inv : cv_inv n done st) :
    cv_inv n (done ++ [(h, some a)])
      { st with
        um := st.um.set h (some s.dest),
        card := (st.card.set c (st.card.getD c 0 - 1)).set s.dest
          ((st.card.set c (st.card.getD c 0 - 1)).getD s.dest 0 + 1) } := by
  have hsmem : s ∈ st.splits := List.mem_of_find?_eq_some hfind
  have hpred := List.find?_some hfind
  simp only [Bool.and_eq_true, beq_iff_eq] at hpred
  obtain ⟨hsrc, hval⟩ := hpred
  obtain ⟨hd1, hd2, hd3⟩ := inv.hsplit s hsmem
  rw [hval] at hd2
  have hcd : c ≠ s.dest := by
    intro he
    rw [he, hd2] at hng
    exact hxa (Option.some.inj hng).symm
  have hhum := getD_eq_some_imp hum
  have hclt : c < st.card.length := inv.hrange c hhum.2
  have hccard : 1 ≤ st.card.getD c 0 := by
    rw [inv.hcount c hclt]
    exact List.count_pos_iff.mpr hhum.2
  have hc1len : (st.card.set c (st.card.getD c 0 - 1)).length = st.card.length :=
    List.length_set _ _ _
  have hd1' : s.dest < (st.card.set c (st.card.getD c 0 - 1)).length := by
    rw [hc1len]; exact hd1
  have hdge : (st.card.set c (st.card.getD c 0 - 1)).getD s.dest 0
      = st.card.getD s.dest 0 := getD_set_ne _ _ _ hcd
  have hc2len : ((st.card.set c (st.card.getD c 0 - 1)).set s.dest
      ((st.card.set c (st.card.getD c 0 - 1)).getD s.dest 0 + 1)).length
      = st.card.length := by
    rw [List.length_set, hc1len]
  refine ⟨?_, ?_, ?_, ?_, ?_, ?_, ?_, ?_, ?_⟩
  · intro c' hc'
    rw [hc2len] at hc'
    show ((st.card.set c (st.card.getD c 0 - 1)).set s.dest
        ((st.card.set c (st.card.getD c 0 - 1)).getD s.dest 0 + 1)).getD c' 0
      = (st.um.set h (some s.dest)).count (some c')
    have hcs := count_set_option st.um h (some s.dest) (some c') hhum.1
    rw [hum] at hcs
    by_cases h1 : c' = s.dest
    · subst h1
      rw [getD_set_self _ _ _ _ hd1', hdge]
      rw [if_pos rfl, if_neg (fun he => hcd (Option.some.inj he))] at hcs
      have := inv.hcount s.dest hc'
      omega
    · rw [getD_set_ne _ _ _ (fun he => h1 he.symm)]
      rw [if_neg (fun he => h1 (Option.some.inj he).symm)] at hcs
      by_cases h2 : c' = c
      · subst h2
        rw [getD_set_self _ _ _ _ hclt]
        rw [if_pos rfl] at hcs
        have := inv.hcount c' hc'
        omega
      · rw [getD_set_ne _ _ _ (fun he => h2 he.symm)]
        rw [if_neg (fun he => h2 (Option.some.inj he).symm)] at hcs
        have := inv.hcount c' hc'
        omega
  · intro c' hmem'
    rw [hc2len]
    rcases mem_of_mem_set hmem' with he | hm
    · obtain rfl : c' = s.dest := Option.some.inj he
      exact hd1
    · exact inv.hrange c' hm
  · intro v hv
    rw [hc2len]
    exact inv.hlen_old v hv
  · intro v hv
    have hgt_len : v.gt.length = st.card.length := inv.hlen_old v hv
    have hdd : v.gt.getD s.dest 0 = v.gt.getD c 0 := by
      have := inv.hsplit_gt s hsmem v hv
      rw [hsrc] at this
      exact this
    have e1 := dot_set_add (st.card.set c (st.card.getD c 0 - 1)) v.gt s.dest
      ((st.card.set c (st.card.getD c 0 - 1)).getD s.dest 0 + 1) hd1'
      (by rw [hc1len, hgt_len])
    have e2 := dot_set_add st.card v.gt c (st.card.getD c 0 - 1) hclt hgt_len.symm
    have ex2 : st.card.getD c 0 * v.gt.getD c 0
        = (st.card.getD c 0 - 1) * v.gt.getD c 0 + v.gt.getD c 0 := by
      obtain ⟨y, hy⟩ : ∃ y, st.card.getD c 0 = y + 1 :=
        ⟨st.card.getD c 0 - 1, by omega⟩
      rw [hy]
      rw [show y + 1 - 1 = y from rfl]
      ring
    rw [hdge] at e1
    have ex1 : (st.card.getD s.dest 0 + 1) * v.gt.getD s.dest 0
        = st.card.getD s.dest 0 * v.gt.getD s.dest 0 + v.gt.getD s.dest 0 := by
      ring
    have hac := inv.hac_old v hv
    show v.ac = dot ((st.card.set c (st.card.getD c 0 - 1)).set s.dest
      ((st.card.set c (st.card.getD c 0 - 1)).getD s.dest 0 + 1)) v.gt
    rw [hdge]
    omega
  · show st.new_gt.length = _
    rw [hc2len]
    exact inv.hnewlen
  · show (st.um.set h (some s.dest)).length = n
    rw [List.length_set]
    exact inv.humlen
  · intro s' hs'
    obtain ⟨h1, h2, h3⟩ := inv.hsplit s' hs'
    refine ⟨?_, h2, ?_⟩
    · rw [hc2len]
      exact h1
    · rw [hc2len]
      exact h3
  · exact inv.hsplit_gt
  · intro q hq
    rcases List.mem_append.mp hq with hq | hq
    · have hq1h : q.1 ≠ h := by
        intro he
        exact hfresh (he ▸ List.mem_map_of_mem Prod.fst hq)
      obtain ⟨hqa, hqb⟩ := inv.hdone q hq
      refine ⟨?_, ?_⟩
      · intro hqn
        show (st.um.set h (some s.dest)).getD q.1 none = none
        rw [getD_set_ne _ _ _ (fun he => hq1h he.symm)]
        exact hqa hqn
      · intro a' ha'
        obtain ⟨cq, hcq1, hcq2⟩ := hqb a' ha'
        refine ⟨cq, ?_, hcq2⟩
        show (st.um.set h (some s.dest)).getD q.1 none = some cq
        rw [getD_set_ne _ _ _ (fun he => hq1h he.symm)]
        exact hcq1
    · simp only [List.mem_cons, List.not_mem_nil, or_false] at hq
      subst hq
      refine ⟨fun hcon => by simp at hcon, fun a' ha' => ?_⟩
      obtain rfl : a = a' := Option.some.inj ha'
      refine ⟨s.dest, ?_, hd2⟩
      show (st.um.set h (some s.dest)).getD h none = some s.dest
      rw [getD_set_self _ _ _ _ hhum.1]

/-- Helper: absorbing-fold invariant after a haplotype forces a fresh
column split: a new column is appended, earlier variants are back-filled
from the split source, and map and cardinalities are updated. -/

theorem cv_step_inv_split (n : ℕ) (done : List (ℕ × Option ℕ)) (st : cv_state)
    (h a c : ℕ)
    (hfresh : h ∉ done.map Prod.fst)
    (hum : st.um.getD h none = some c)
    (inv : cv_inv n done st) :
    cv_inv n (done ++ [(h, some a)])
      { st with
        um := st.um.set h (some st.card.length),
        old := st.old.map (fun v => { v with gt := v.gt ++ [v.gt.getD c 0] }),
        new_gt := st.new_gt ++ [some a],
        card := (st.card.set c (st.card.getD c 0 - 1) ++ [1]),
        splits := st.splits ++ [⟨c, a, st.card.length⟩] } := by
  have hhum := getD_eq_some_imp hum
  have hclt : c < st.card.length := inv.hrange c hhum.2
  have hccard : 1 ≤ st.card.getD c 0 := by
    rw [inv.hcount c hclt]
    exact List.count_pos_iff.mpr hhum.2
  have hc1len : (st.card.set c (st.card.getD c 0 - 1)).length = st.card.length :=
    List.length_set _ _ _
  have hc2len : (st.card.set c (st.card.getD c 0 - 1) ++ [1]).length
      = st.card.length + 1 := by
    rw [List.length_append, hc1len]
    rfl
  have hLmem : some st.card.length ∉ st.um := by
    intro hm
    exact absurd (inv.hrange _ hm) (by omega)
  refine ⟨?_, ?_, ?_, ?_, ?_, ?_, ?_, ?_, ?_⟩
  · intro c' hc'
    rw [hc2len] at hc'
    show (st.card.set c (st.card.getD c 0 - 1) ++ [1]).getD c' 0
      = (st.um.set h (some st.card.length)).count (some c')
    have hcs := count_set_option st.um h (some st.card.length) (some c') hhum.1
    rw [hum] at hcs
    by_cases h1 : c' = st.card.length
    · subst h1
      have hone : (st.card.set c (st.card.getD c 0 - 1) ++ [1]).getD
          st.card.length 0 = 1 := by
        rw [← hc1len]
        exact getD_append_len _ _ _
      rw [hone]
      rw [if_pos rfl, if_neg (fun he => absurd (Option.some.inj he) (by omega))] at hcs
      rw [List.count_eq_zero.mpr hLmem] at hcs
      omega
    · have hc'lt : c' < st.card.length := by omega
      rw [getD_append_left _ _ _ _ (by rw [hc1len]; exact hc'lt)]
      rw [if_neg (fun he => h1 (Option.some.inj he).symm)] at hcs
      by_cases h2 : c' = c
      · subst h2
        rw [getD_set_self _ _ _ _ hclt]
        rw [if_pos rfl] at hcs
        have := inv.hcount c' hc'lt
        omega
      · rw [getD_set_ne _ _ _ (fun he => h2 he.symm)]
        rw [if_neg (fun he => h2 (Option.some.inj he).symm)] at hcs
        have := inv.hcount c' hc'lt
        omega
  · intro c' hmem'
    rw [hc2len]
    rcases mem_of_mem_set hmem' with he | hm
    · obtain rfl : c' = st.card.length := Option.some.inj he
      omega
    · have := inv.hrange c' hm
      omega
  · intro v' hv'
    obtain ⟨v, hv, rfl⟩ := List.mem_map.mp hv'
    rw [hc2len]
    show (v.gt ++ [v.gt.getD c 0]).length = st.card.length + 1
    rw [List.length_append, inv.hlen_old v hv]
    rfl
  · intro v' hv'
    obtain ⟨v, hv, rfl⟩ := List.mem_map.mp hv'
    have hgt_len : v.gt.length = st.card.length := inv.hlen_old v hv
    show v.ac = dot (st.card.set c (st.card.getD c 0 - 1) ++ [1])
      (v.gt ++ [v.gt.getD c 0])
    rw [dot_append_singleton _ _ _ _ (by rw [hc1len, hgt_len])]
    have e2 := dot_set_add st.card v.gt c (st.card.getD c 0 - 1) hclt hgt_len.symm
    have ex2 : st.card.getD c 0 * v.gt.getD c 0
        = (st.card.getD c 0 - 1) * v.gt.getD c 0 + v.gt.getD c 0 := by
      obtain ⟨y, hy⟩ : ∃ y, st.card.getD c 0 = y + 1 :=
        ⟨st.card.getD c 0 - 1, by omega⟩
      rw [hy]
      rw [show y + 1 - 1 = y from rfl]
      ring
    have hac := inv.hac_old v hv
    omega
  · show (st.new_gt ++ [some a]).length = _
    rw [List.length_append, inv.hnewlen, hc2len]
    rfl
  · show (st.um.set h (some st.card.length)).length = n
    rw [List.length_set]
    exact inv.humlen
  · intro s' hs'
    rcases List.mem_append.mp hs' with hs' | hs'
    · obtain ⟨h1, h2, h3⟩ := inv.hsplit s' hs'
      refine ⟨by rw [hc2len]; omega, ?_, by rw [hc2len]; omega⟩
      show (st.new_gt ++ [some a]).getD s'.dest none = some s'.allele_val
      rw [getD_append_left _ _ _ _ (by rw [inv.hnewlen]; exact h1)]
      exact h2
    · simp only [List.mem_cons, List.not_mem_nil, or_false] at hs'
      subst hs'
      refine ⟨?_, ?_, ?_⟩
      · show st.card.length < (st.card.set c (st.card.getD c 0 - 1) ++ [1]).length
        rw [hc2len]
        omega
      · show (st.new_gt ++ [some a]).getD st.card.length none = some a
        rw [← inv.hnewlen]
        exact getD_append_len _ _ _
      · show c < (st.card.set c (st.card.getD c 0 - 1) ++ [1]).length
        rw [hc2len]
        omega
  · intro s' hs' v' hv'
    obtain ⟨v, hv, rfl⟩ := List.mem_map.mp hv'
    have hgt_len : v.gt.length = st.card.length := inv.hlen_old v hv
    rcases List.mem_append.mp hs' with hs' | hs'
    · obtain ⟨h1, _, h3⟩ := inv.hsplit s' hs'
      show (v.gt ++ [v.gt.getD c 0]).getD s'.dest 0
        = (v.gt ++ [v.gt.getD c 0]).getD s'.src 0
      rw [getD_append_left _ _ _ _ (by rw [hgt_len]; exact h1),
        getD_append_left _ _ _ _ (by rw [hgt_len]; exact h3)]
      exact inv.hsplit_gt s' hs' v hv
    · simp only [List.mem_cons, List.not_mem_nil, or_false] at hs'
      subst hs'
      show (v.gt ++ [v.gt.getD c 0]).getD st.card.length 0
        = (v.gt ++ [v.gt.getD c 0]).getD c 0
      rw [← hgt_len, getD_append_len,
        getD_append_left _ _ _ _ (by rw [hgt_len] at *; omega)]
  · intro q hq
    rcases List.mem_append.mp hq with hq | hq
    · have hq1h : q.1 ≠ h := by
        intro he
        exact hfresh (he ▸ List.mem_map_of_mem Prod.fst hq)
      obtain ⟨hqa, hqb⟩ := inv.hdone q hq
      refine ⟨?_, ?_⟩
      · intro hqn
        show (st.um.set h (some st.card.length)).getD q.1 none = none
        rw [getD_set_ne _ _ _ (fun he => hq1h he.symm)]
        exact hqa hqn
      · intro a' ha'
        obtain ⟨cq, hcq1, hcq2⟩ := hqb a' ha'
        refine ⟨cq, ?_, ?_⟩
        · show (st.um.set h (some st.card.length)).getD q.1 none = some cq
          rw [getD_set_ne _ _ _ (fun he => hq1h he.symm)]
          exact hcq1
        · show (st.new_gt ++ [some a]).getD cq none = some a'
          rw [getD_append_left _ _ _ _ (getD_eq_some_imp hcq2).1]
          exact hcq2
    · simp only [List.mem_cons, List.not_mem_nil, or_false] at hq
      subst hq
      refine ⟨fun hcon => by simp at hcon, fun a' ha' => ?_⟩
      obtain rfl : a = a' := Option.some.inj ha'
      refine ⟨st.card.length, ?_, ?_⟩
      · show (st.um.set h (some st.card.length)).getD h none = some st.card.length
        rw [getD_set_self _ _ _ _ hhum.1]
      · show (st.new_gt ++ [some a]).getD st.card.length none = some a
        rw [← inv.hnewlen]
        exact getD_append_len _ _ _

/-- Helper: one `cv_step` preserves the absorbing-fold invariant. -/

theorem cv_step_inv (n : ℕ) (done : List (ℕ × Option ℕ)) (st : cv_state)
    (p : ℕ × Option ℕ) (hfresh : p.1 ∉ done.map Prod.fst)
    (hinv : st.ok = true → cv_inv n done st) :
    (cv_step st p).ok = true → cv_inv n (done ++ [p]) (cv_step st p) := by
  intro hok'
  cases hok : st.ok with
  | false =>
    have hstep : cv_step st p = st := by
      rw [cv_step, if_neg (by simp [hok])]
    rw [hstep, hok] at hok'
    exact absurd hok' (by simp)
  | true =>
    have inv := hinv hok
    obtain ⟨h, al⟩ := p
    revert hok'
    cases al with
    | none =>
      cases hum : st.um.getD h none with
      | none =>
        intro _hok'
        have hum2 : st.um[h]?.getD none = none := by
          rw [← List.getD_eq_getElem?_getD]
          exact hum
        have hstep : cv_step st (h, none) = st := by
          simp [cv_step, hok, hum2]
        rw [hstep]
        exact cv_step_inv_eov n done st h hum inv
      | some c =>
        intro hok'
        have hum2 : st.um[h]?.getD none = some c := by
          rw [← List.getD_eq_getElem?_getD]
          exact hum
        have hstep : cv_step st (h, none) = { st with ok := false } := by
          simp [cv_step, hok, hum2]
        rw [hstep] at hok'
        simp at hok'
    | some a =>
      cases hum : st.um.getD h none with
      | none =>
        intro hok'
        have hum2 : st.um[h]?.getD none = none := by
          rw [← List.getD_eq_getElem?_getD]
          exact hum
        have hstep : cv_step st (h, some a) = { st with ok := false } := by
          simp [cv_step, hok, hum2]
        rw [hstep] at hok'
        simp at hok'
      | some c =>
        have hum2 : st.um[h]?.getD none = some c := by
          rw [← List.getD_eq_getElem?_getD]
          exact hum
        cases hng : st.new_gt.getD c none with
        | none =>
          intro _hok'
          have hng2 : st.new_gt[c]?.getD none = none := by
            rw [← List.getD_eq_getElem?_getD]
            exact hng
          have hstep : cv_step st (h, some a)
              = { st with new_gt := st.new_gt.set c (some a) } := by
            simp [cv_step, hok, hum2, hng2]
          rw [hstep]
          exact cv_step_inv_assign n done st h a c hum hng inv
        | some x =>
          have hng2 : st.new_gt[c]?.getD none = some x := by
            rw [← List.getD_eq_getElem?_getD]
            exact hng
          by_cases hxa : x = a
          · intro _hok'
            subst hxa
            have hstep : cv_step st (h, some x) = st := by
              simp [cv_step, hok, hum2, hng2]
            rw [hstep]
            exact cv_step_inv_match n done st h x c hum hng inv
          · cases hfind :
                st.splits.find? (fun q => q.src == c && q.allele_val == a) with
            | some s =>
              intro _hok'
              have hstep : cv_step st (h, some a)
                  = { st with
                      um := st.um.set h (some s.dest),
                      card := (st.card.set c (st.card.getD c 0 - 1)).set s.dest
                        ((st.card.set c (st.card.getD c 0 - 1)).getD s.dest 0 + 1) } := by
                simp [cv_step, hok, hum2, hng2, hxa, hfind]
              rw [hstep]
              exact cv_step_inv_reuse n done st h a c x s hfresh hum hng hxa hfind inv
            | none =>
              intro _hok'
              have hstep : cv_step st (h, some a)
                  = { st with
                      um := st.um.set h (some st.card.length),
                      old := st.old.map (fun v => { v with gt := v.gt ++ [v.gt.getD c 0] }),
                      new_gt := st.new_gt ++ [some a],
                      card := (st.card.set c (st.card.getD c 0 - 1) ++ [1]),
                      splits := st.splits ++ [⟨c, a, st.card.length⟩] } := by
                simp [cv_step, hok, hum2, hng2, hxa, hfind]
              rw [hstep]
              exact cv_step_inv_split n done st h a c hfresh hum inv

/-- Helper: the whole absorbing fold preserves the invariant. -/

theorem cv_fold_inv (n : ℕ) : ∀ (l done : List (ℕ × Option ℕ)) (st : cv_state),
    ((done ++ l).map Prod.fst).Nodup →
    (st.ok = true → cv_inv n done st) →
    ((l.foldl cv_step st).ok = true → cv_inv n (done ++ l) (l.foldl cv_step st)) := by
  intro l
  induction l with
  | nil =>
    intro done st _ hinv
    simpa using hinv
  | cons p t ih =>
    intro done st hnd hinv
    rw [List.foldl_cons]
    have hfresh : p.1 ∉ done.map Prod.fst := by
      rw [List.map_append] at hnd
      have hdisj := (List.nodup_append.mp hnd).2.2
      intro hmem
      exact hdisj hmem (by simp)
    have hnd' : (((done ++ [p]) ++ t).map Prod.fst).Nodup := by
      rw [List.append_assoc]
      simpa using hnd
    have hstep := cv_step_inv n done st p hfresh hinv
    have hres := ih (done ++ [p]) (cv_step st p) hnd' hstep
    rw [List.append_assoc] at hres
    simpa using hres

/-- Helper: at the end of the absorbing fold, the cardinality-weighted
sum of the new variant's genotype row is the allele count of the raw
input. -/

theorem cv_final_dot (alleles : List (Option ℕ)) (stf : cv_state)
    (hinv : cv_inv alleles.length alleles.enum stf) :
    dot stf.card (stf.new_gt.map (fun o => o.getD 0))
      = (alleles.filterMap id).sum := by
  have hgtlen : (stf.new_gt.map (fun o => o.getD 0)).length = stf.card.length := by
    rw [List.length_map]
    exact hinv.hnewlen
  rw [dot_eq_range stf.card _ hgtlen.symm]
  have h1 : ((List.range stf.card.length).map
        (fun c => stf.card.getD c 0 * (stf.new_gt.map (fun o => o.getD 0)).getD c 0)).sum
      = ((List.range stf.card.length).map
        (fun c => stf.um.count (some c) * (stf.new_gt.map (fun o => o.getD 0)).getD c 0)).sum := by
    refine congrArg List.sum (List.map_congr_left ?_)
    intro c hc
    rw [List.mem_range] at hc
    rw [hinv.hcount c hc]
  rw [h1, sum_count_mul stf.um stf.card.length _ hinv.hrange]
  have h2 : stf.um.map (fun op : Option ℕ => match op with
        | some c => (stf.new_gt.map (fun o : Option ℕ => o.getD 0)).getD c 0
        | none => 0)
      = (List.range alleles.length).map (fun i => match stf.um.getD i none with
        | some c => (stf.new_gt.map (fun o : Option ℕ => o.getD 0)).getD c 0
        | none => 0) := by
    conv_lhs => rw [← map_getD_range stf.um none]
    rw [List.map_map, hinv.humlen]
    rfl
  rw [h2, ← sum_getD0_eq_filterMap]
  have h3 : alleles.map (fun o => o.getD 0)
      = (List.range alleles.length).map (fun i => (alleles.getD i none).getD 0) := by
    conv_lhs => rw [← map_getD_range alleles none]
    rw [List.map_map]
    rfl
  rw [h3]
  refine congrArg List.sum (List.map_congr_left ?_)
  intro i hi
  rw [List.mem_range] at hi
  have hmem : (i, alleles.getD i none) ∈ alleles.enum := by
    rw [List.mk_mem_enum_iff_getElem?]
    exact getElem?_eq_some_getD alleles i none hi
  obtain ⟨hp1, hp2⟩ := hinv.hdone (i, alleles.getD i none) hmem
  cases hcase : alleles.getD i none with
  | none =>
    rw [hp1 hcase]
    rfl
  | some av =>
    obtain ⟨cq, hcq1, hcq2⟩ := hp2 av hcase
    rw [hcq1]
    show (stf.new_gt.map (fun o => o.getD 0)).getD cq 0 = (some av).getD 0
    have hcqlt : cq < stf.new_gt.length := (getD_eq_some_imp hcq2).1
    rw [getD_map_lt (fun o => o.getD 0) stf.new_gt cq 0 none hcqlt, hcq2]

/-- Helper: `compress_variant` preserves the strong block invariant:
a successful call yields an invariant-satisfying block and a failed call
returns the block unchanged. -/

theorem compress_variant_block_inv (b : unique_haplotype_block)
    (site : reference_site_info) (alleles : List (Option ℕ))
    (hb : block_inv b) :
    block_inv (compress_variant b site alleles).1 := by
  by_cases hemp : alleles.isEmpty
  · rw [compress_variant, if_pos hemp]
    exact hb
  · by_cases hvar : b.variants_.isEmpty
    · rw [compress_variant, if_neg hemp, if_pos hvar]
      have hinit : first_inv ⟨[], [], []⟩ := by
        refine ⟨rfl, ?_, ?_⟩
        · intro c hc
          simp at hc
        · intro c hc
          simp at hc
      obtain ⟨hinv, hdot⟩ := first_fold_inv alleles ⟨[], [], []⟩ hinit
      refine ⟨hinv.hcount, hinv.hrange, ?_, ?_⟩
      · intro v hv
        simp only [List.mem_cons, List.not_mem_nil, or_false] at hv
        subst hv
        exact hinv.hlen.symm
      · intro v hv
        simp only [List.mem_cons, List.not_mem_nil, or_false] at hv
        subst hv
        show (alleles.filterMap id).sum = _
        rw [hdot]
        simp [dot]
    · by_cases hlen : alleles.length ≠ b.unique_map_.length
      · rw [compress_variant, if_neg hemp, if_neg hvar, if_pos hlen]
        exact hb
      · push_neg at hlen
        have hinv0 : (cv_state.ok
              ⟨b.unique_map_, b.cardinalities_, b.variants_,
                List.replicate b.cardinalities_.length none, [], true⟩) = true →
            cv_inv alleles.length []
              ⟨b.unique_map_, b.cardinalities_, b.variants_,
                List.replicate b.cardinalities_.length none, [], true⟩ := by
          intro _
          refine ⟨hb.1, hb.2.1, hb.2.2.1, hb.2.2.2, ?_, ?_, ?_, ?_, ?_⟩
          · exact List.length_replicate _ _
          · exact hlen.symm
          · intro s hs
            simp at hs
          · intro s hs
            simp at hs
          · intro q hq
            simp at hq
        have hnodup : (([] ++ alleles.enum).map Prod.fst).Nodup := by
          rw [List.nil_append, List.enum_map_fst]
          exact List.nodup_range _
        have hfold := cv_fold_inv alleles.length alleles.enum []
          ⟨b.unique_map_, b.cardinalities_, b.variants_,
            List.replicate b.cardinalities_.length none, [], true⟩ hnodup hinv0
        rw [compress_variant, if_neg hemp, if_neg hvar,
          if_neg (fun hcon => hcon hlen)]
        show block_inv ((if (alleles.enum.foldl cv_step
            ⟨b.unique_map_, b.cardinalities_, b.variants_,
              List.replicate b.cardinalities_.length none, [], true⟩).ok = true
          then ((⟨(alleles.enum.foldl cv_step
                ⟨b.unique_map_, b.cardinalities_, b.variants_,
                  List.replicate b.cardinalities_.length none, [], true⟩).um,
              (alleles.enum.foldl cv_step
                ⟨b.unique_map_, b.cardinalities_, b.variants_,
                  List.replicate b.cardinalities_.length none, [], true⟩).card,
              (alleles.enum.foldl cv_step
                ⟨b.unique_map_, b.cardinalities_, b.variants_,
                  List.replicate b.cardinalities_.length none, [], true⟩).old
                ++ [⟨site, (alleles.filterMap id).sum,
                  (alleles.enum.foldl cv_step
                    ⟨b.unique_map_, b.cardinalities_, b.variants_,
                      List.replicate b.cardinalities_.length none, [], true⟩).new_gt.map
                    (fun o => o.getD 0)⟩]⟩ : unique_haplotype_block), true)
          else (b, false)).1)
        by_cases hokf : (alleles.enum.foldl cv_step
            ⟨b.unique_map_, b.cardinalities_, b.variants_,
              List.replicate b.cardinalities_.length none, [], true⟩).ok = true
        · have invf := hfold hokf
          rw [List.nil_append] at invf
          rw [if_pos hokf]
          refine ⟨invf.hcount, invf.hrange, ?_, ?_⟩
          · intro v hv
            rcases List.mem_append.mp hv with hv | hv
            · exact invf.hlen_old v hv
            · simp only [List.mem_cons, List.not_mem_nil, or_false] at hv
              subst hv
              show (List.map _ _).length = _
              rw [List.length_map]
              exact invf.hnewlen
          · intro v hv
            rcases List.mem_append.mp hv with hv | hv
            · exact invf.hac_old v hv
            · simp only [List.mem_cons, List.not_mem_nil, or_false] at hv
              subst hv
              exact (cv_final_dot alleles _ invf).symm
        · rw [if_neg hokf]
          exact hb

/-- Helper: every block reachable by `run_compress` satisfies the strong
invariant. -/

theorem run_compress_block_inv (calls : List (reference_site_info × List (Option ℕ))) :
    block_inv (run_compress calls) := by
  have H : ∀ (l : List (reference_site_info × List (Option ℕ)))
      (b : unique_haplotype_block), block_inv b →
      block_inv (l.foldl (fun b call =>
        let r := compress_variant b call.1 call.2
        if r.2 then r.1 else b) b) := by
    intro l
    induction l with
    | nil => intro b hb; exact hb
    | cons call t ih =>
      intro b hb
      rw [List.foldl_cons]
      refine ih _ ?_
      show block_inv (if (compress_variant b call.1 call.2).2 = true then
        (compress_variant b call.1 call.2).1 else b)
      by_cases hr : (compress_variant b call.1 call.2).2 = true
      · rw [if_pos hr]
        exact compress_variant_block_inv b call.1 call.2 hb
      · rw [if_neg hr]
        exact hb
  refine H calls empty_block ?_
  refine ⟨?_, ?_, ?_, ?_⟩
  · intro c hc
    simp [empty_block] at hc
  · intro c hc
    simp [empty_block] at hc
  · intro v hv
    simp [empty_block] at hv
  · intro v hv
    simp [empty_block] at hv

/-- C8 (spec-modelled): `trim(min_pos, max_pos)` retains exactly the
variants whose position lies in the inclusive window, in their original
order (the kept list is the position filter of the original list, hence
a sublist); when no variant lies inside the window the whole block is
cleared, and otherwise `unique_map` and `cardinalities` are left
unchanged. -/

theorem c8_trim_window (b : unique_haplotype_block) (min_pos max_pos : ℕ)
    (_hle : min_pos ≤ max_pos) :
    (b.trim min_pos max_pos).variants =
      b.variants.filter (fun v => decide (min_pos ≤ v.pos) && decide (v.pos ≤ max_pos)) ∧
    (b.trim min_pos max_pos).variants.Sublist b.variants ∧
    (b.variants.filter (fun v => decide (min_pos ≤ v.pos) && decide (v.pos ≤ max_pos)) ≠ [] →
      (b.trim min_pos max_pos).unique_map = b.unique_map ∧
      (b.trim min_pos max_pos).cardinalities = b.cardinalities) ∧
    (b.variants.filter (fun v => decide (min_pos ≤ v.pos) && decide (v.pos ≤ max_pos)) = [] →
      b.trim min_pos max_pos = unique_haplotype_block.mk [] [] []) := by
  by_cases hk : b.variants_.filter
      (fun v => decide (min_pos ≤ v.pos) && decide (v.pos ≤ max_pos)) = []
  · have htrim : b.trim min_pos max_pos = unique_haplotype_block.mk [] [] [] := by
      simp only [unique_haplotype_block.trim, hk, List.isEmpty_nil, if_true]
      rfl
    refine ⟨?_, ?_, ?_, fun _ => htrim⟩
    · rw [htrim]
      simp only [unique_haplotype_block.variants, hk]
    · rw [htrim]
      exact List.nil_sublist _
    · intro hne
      exact absurd hk hne
  · have htrim : b.trim min_pos max_pos =
        ⟨b.unique_map_, b.cardinalities_,
          b.variants_.filter (fun v => decide (min_pos ≤ v.pos) && decide (v.pos ≤ max_pos))⟩ := by
      simp only [unique_haplotype_block.trim]
      rw [if_neg (by simpa [List.isEmpty_iff] using hk)]
    refine ⟨?_, ?_, fun _ => ⟨?_, ?_⟩, fun hnil => absurd hnil hk⟩
    · rw [htrim]
      rfl
    · rw [htrim]
      exact List.filter_sublist _
    · rw [htrim]
      rfl
    · rw [htrim]
      rfl

/-- Witness for C8 at a one-variant block and the window `[1, 10]`. -/

theorem c8_trim_window_witness :
    (trim_example_block.trim 1 10).variants =
      trim_example_block.variants.filter
        (fun v => decide (1 ≤ v.pos) && decide (v.pos ≤ 10)) ∧
    (trim_example_block.trim 1 10).unique_map = trim_example_block.unique_map ∧
    (trim_example_block.trim 1 10).cardinalities = trim_example_block.cardinalities :=
  ⟨(c8_trim_window trim_example_block 1 10 (by norm_num)).1,
   ((c8_trim_window trim_example_block 1 10 (by norm_num)).2.2.1 (by decide)).1,
   ((c8_trim_window trim_example_block 1 10 (by norm_num)).2.2.1 (by decide)).2⟩

/-- Helper: inside one haplotype group (start aligned to the buffer
size, size at most the buffer size) the output column of haplotype `j`
is `j - i0`, so distinct haplotypes of one group write distinct
columns. -/

theorem group_mod_eq (i0 buf j : ℕ) (hstart : i0 % buf = 0) (hbuf : 0 < buf)
    (h1 : i0 ≤ j) (h2 : j < i0 + buf) : j % buf = j - i0 := by
  have ha : j - i0 < buf := by omega
  calc j % buf = (i0 + (j - i0)) % buf := by rw [Nat.add_sub_cancel' h1]
    _ = (i0 % buf + (j - i0) % buf) % buf := by rw [Nat.add_mod]
    _ = (j - i0) % buf % buf := by rw [hstart, Nat.zero_add]
    _ = (j - i0) % buf := Nat.mod_eq_of_lt (Nat.mod_lt _ hbuf)
    _ = j - i0 := Nat.mod_eq_of_lt ha

/-- C10: in the per-group haplotype loop of `impute_chunk`, a haplotype
`i` whose genotype at the first target variant is the end-of-vector
sentinel is skipped without running the HMM, so output column
`i % haplotype_buffer_size` of both dosage matrices keeps the
end-of-vector sentinel values it was filled with before the group ran —
whatever the other haplotypes of the group write. -/

theorem c10_eov_haplotype_column_untouched
    (gt0 : ℕ → tgt_allele) (buf : ℕ) (wd wl : ℕ → ℕ → dcell)
    (r : full_dosages_results) (i0 gs i : ℕ)
    (hbuf : 0 < buf) (hgs : gs ≤ buf) (hstart : i0 % buf = 0)
    (hil : i0 ≤ i) (hiu : i < i0 + gs) (heov : gt0 i = none)
    (hd : column_read r.dosages_ (i % buf) = List.replicate r.dosages_.length none)
    (hl : column_read r.loo_dosages_ (i % buf) =
      List.replicate r.loo_dosages_.length none) :
    column_read (run_group gt0 buf wd wl r i0 gs).dosages_ (i % buf) =
      List.replicate (run_group gt0 buf wd wl r i0 gs).dosages_.length none ∧
    column_read (run_group gt0 buf wd wl r i0 gs).loo_dosages_ (i % buf) =
      List.replicate (run_group gt0 buf wd wl r i0 gs).loo_dosages_.length none := by
  have aux : ∀ (l : List ℕ) (s : full_dosages_results),
      (∀ j ∈ l, i0 ≤ j ∧ j < i0 + gs) →
      column_read s.dosages_ (i % buf) = List.replicate s.dosages_.length none →
      column_read s.loo_dosages_ (i % buf) =
        List.replicate s.loo_dosages_.length none →
      column_read (l.foldl (group_body gt0 buf wd wl) s).dosages_ (i % buf) =
        List.replicate (l.foldl (group_body gt0 buf wd wl) s).dosages_.length none ∧
      column_read (l.foldl (group_body gt0 buf wd wl) s).loo_dosages_ (i % buf) =
        List.replicate (l.foldl (group_body gt0 buf wd wl) s).loo_dosages_.length none := by
    intro l
    induction l with
    | nil =>
      intro s _ hds hls
      exact ⟨hds, hls⟩
    | cons j t ih =>
      intro s hmem hds hls
      obtain ⟨hj1, hj2⟩ := hmem j (List.mem_cons_self j t)
      simp only [List.foldl_cons]
      by_cases hjeov : gt0 j = none
      · have hbody : group_body gt0 buf wd wl s j = s := by
          simp [group_body, hjeov]
        rw [hbody]
        exact ih s (fun j' hj' => hmem j' (List.mem_cons_of_mem _ hj')) hds hls
      · have hjne : j ≠ i := fun he => hjeov (he ▸ heov)
        have hne : (i % buf) ≠ (j % buf) := by
          rw [group_mod_eq i0 buf j hstart hbuf hj1 (by omega),
            group_mod_eq i0 buf i hstart hbuf hil (by omega)]
          omega
        have hbody : group_body gt0 buf wd wl s j =
            { dosages_ := write_column s.dosages_ (j % buf) (wd j),
              loo_dosages_ := write_column s.loo_dosages_ (j % buf) (wl j) } := by
          simp [group_body, hjeov]
        rw [hbody]
        refine ih _ (fun j' hj' => hmem j' (List.mem_cons_of_mem _ hj')) ?_ ?_
        · rw [(write_column_preserves_other (j % buf) (i % buf) hne s.dosages_ (wd j)).1,
            (write_column_preserves_other (j % buf) (i % buf) hne s.dosages_ (wd j)).2]
          exact hds
        · rw [(write_column_preserves_other (j % buf) (i % buf) hne s.loo_dosages_ (wl j)).1,
            (write_column_preserves_other (j % buf) (i % buf) hne s.loo_dosages_ (wl j)).2]
          exact hls
  refine aux (List.range' i0 gs) r ?_ hd hl
  intro j hj
  rw [List.mem_range'] at hj
  obtain ⟨k, hk1, hk2⟩ := hj
  omega

/-- Witness for C10: a two-haplotype group over a buffer of 2 where
haplotype 1 carries the sentinel; its column (column 1) stays sentinel
although haplotype 0 writes column 0. -/

theorem c10_eov_haplotype_column_untouched_witness :
    column_read (run_group (fun j => if j = 1 then none else some 0) 2
        (fun _ _ => some 1) (fun _ _ => some 1)
        ⟨[[none, none]], [[none, none]]⟩ 0 2).dosages_ (1 % 2) =
      List.replicate (run_group (fun j => if j = 1 then none else some 0) 2
        (fun _ _ => some 1) (fun _ _ => some 1)
        ⟨[[none, none]], [[none, none]]⟩ 0 2).dosages_.length none ∧
    column_read (run_group (fun j => if j = 1 then none else some 0) 2
        (fun _ _ => some 1) (fun _ _ => some 1)
        ⟨[[none, none]], [[none, none]]⟩ 0 2).loo_dosages_ (1 % 2) =
      List.replicate (run_group (fun j => if j = 1 then none else some 0) 2
        (fun _ _ => some 1) (fun _ _ => some 1)
        ⟨[[none, none]], [[none, none]]⟩ 0 2).loo_dosages_.length none :=
  c10_eov_haplotype_column_untouched
    (fun j => if j = 1 then none else some 0) 2
    (fun _ _ => some 1) (fun _ _ => some 1)
    ⟨[[none, none]], [[none, none]]⟩ 0 2 1
    (by norm_num) (by norm_num) rfl (by norm_num) (by norm_num) rfl
    (by decide) (by decide)

/-- C5 (spec-modelled): for every `unique_haplotype_block` reachable by
any sequence of successful `compress_variant` calls (a failed call
leaves the block unchanged in this model, so `run_compress` reaches
exactly those states), the sum of the cardinalities equals the length of
the unique map minus the number of end-of-vector sentinel entries, every
contained variant's genotype vector has length `cardinalities.size()`,
and every contained variant's `ac` equals the sum over columns `c` of
`cardinalities[c] * gt[c]`. -/

theorem c5_compress_variant_invariants
    (calls : List (reference_site_info × List (Option ℕ))) :
    (run_compress calls).cardinalities.sum
      = (run_compress calls).unique_map.length
        - (run_compress calls).unique_map.count none ∧
    (∀ v ∈ (run_compress calls).variants,
      v.gt.length = (run_compress calls).cardinalities.length) ∧
    (∀ v ∈ (run_compress calls).variants,
      v.ac = dot (run_compress calls).cardinalities v.gt) := by
  obtain ⟨hcount, hrange, hlen, hac⟩ := run_compress_block_inv calls
  simp only [unique_haplotype_block.cardinalities, unique_haplotype_block.unique_map,
    unique_haplotype_block.variants]
  refine ⟨?_, hlen, hac⟩
  have h0 : (run_compress calls).cardinalities_.sum
      = ((List.range (run_compress calls).cardinalities_.length).map
          (fun c => (run_compress calls).cardinalities_.getD c 0)).sum := by
    conv_lhs => rw [← map_getD_range (run_compress calls).cardinalities_ 0]
  have h1 : ((List.range (run_compress calls).cardinalities_.length).map
        (fun c => (run_compress calls).cardinalities_.getD c 0)).sum
      = ((List.range (run_compress calls).cardinalities_.length).map
        (fun c => (run_compress calls).unique_map_.count (some c) * 1)).sum := by
    refine congrArg List.sum (List.map_congr_left ?_)
    intro c hc
    rw [List.mem_range] at hc
    rw [hcount c hc, Nat.mul_one]
  have h2 : ((List.range (run_compress calls).cardinalities_.length).map
        (fun c => (run_compress calls).unique_map_.count (some c) * 1)).sum
      = ((run_compress calls).unique_map_.map
          (fun o => match o with | some _ => 1 | none => 0)).sum :=
    sum_count_mul (run_compress calls).unique_map_
      (run_compress calls).cardinalities_.length (fun _ => 1) hrange
  have h3 := sum_option_indicator (run_compress calls).unique_map_
  rw [h0, h1, h2]
  omega

end Minimac4
